import Mathlib

/-!
Verification development for the lesson-planner scheduling and plan-merge engine.

JavaScript strings are modelled as `List Char` (`Str` below).  All date values
are modelled with a zero UTC offset, i.e. `new Date(y, m-1, d)` denotes the
calendar day `(y, m, d)` and `toISOString().split('T')[0]` renders that same
calendar day; this matches the source's intent of treating dates as plain
local calendar dates.
-/

set_option maxRecDepth 4000

namespace LP

abbrev Str := List Char

/-- The JavaScript whitespace class `\s` (also the set stripped by
`String.prototype.trim`): tab, LF, VT, FF, CR, space, NBSP, and the Unicode
space separators, line/paragraph separators, and BOM. -/
def isWS (c : Char) : Bool :=
  c.toNat == 9 || c.toNat == 10 || c.toNat == 11 || c.toNat == 12 ||
  c.toNat == 13 || c.toNat == 32 || c.toNat == 160 || c.toNat == 5760 ||
  (8192 ≤ c.toNat && c.toNat ≤ 8202) || c.toNat == 8232 || c.toNat == 8233 ||
  c.toNat == 8239 || c.toNat == 8287 || c.toNat == 12288 || c.toNat == 65279

/-- Model of `s.trim()`: strip `isWS` characters from both ends. -/
def trimStr (s : Str) : Str :=
  ((s.dropWhile isWS).reverse.dropWhile isWS).reverse

/-- Model of `s.split('\n')`. -/
def splitNL : Str → List Str
  | [] => [[]]
  | c :: rest =>
    if c = '\n' then [] :: splitNL rest
    else
      match splitNL rest with
      | [] => [[c]]
      | l :: ls => (c :: l) :: ls

/-- Model of `lines.join('\n')`. -/
def joinNL : List Str → Str
  | [] => []
  | [l] => l
  | l :: ls => l ++ '\n' :: joinNL ls

/-- A string with no newline character. -/
def noNL (s : Str) : Prop := '\n' ∉ s

/-- Numeric value of a decimal digit character. -/
def dval (c : Char) : Nat := c.toNat - 48

/-- Model of the anchored time regex `^(\d{1,2}):(\d{2})$` (`TIME_REGEX`):
returns the parsed (hours, minutes) pair on a match.  The two-digit-hour and
one-digit-hour shapes have different lengths, so no backtracking subtleties
arise. -/
def matchHMM : Str → Option (Nat × Nat)
  | [a, ':', c, d] =>
    if a.isDigit && c.isDigit && d.isDigit then
      some (dval a, 10 * dval c + dval d)
    else none
  | [a, b, ':', c, d] =>
    if a.isDigit && b.isDigit && c.isDigit && d.isDigit then
      some (10 * dval a + dval b, 10 * dval c + dval d)
    else none
  | _ => none

/-- Model of `ParserService.parseTimeToMinutes`: on a failed match or
out-of-range hour/minute values it returns 0 (midnight); otherwise hours 1-7
are shifted to 13-19 (school-day PM rule) and the minute-of-day is returned.
The memoizing cache in one copy of the source is behaviourally transparent
and is not modelled. -/
def parseTimeToMinutes (s : Str) : Nat :=
  match matchHMM s with
  | none => 0
  | some (h, m) =>
    if h > 23 || m > 59 then 0
    else (if 1 ≤ h && h ≤ 7 then h + 12 else h) * 60 + m

/-- The domain the specification calls a valid time string: a successful
`H:MM`/`HH:MM` match whose hour is 0-23 and whose minutes are 00-59. -/
def validTimeB (s : Str) : Bool :=
  match matchHMM s with
  | none => false
  | some (h, m) => h ≤ 23 && m ≤ 59

/-- Two-digit-hour attempt of `/^## (\d{1,2}:\d{2}) - /` after the `## `
prefix has been consumed. -/
def try2 : Str → Option Str
  | a :: b :: ':' :: c :: d :: rest =>
    if a.isDigit && b.isDigit && c.isDigit && d.isDigit &&
        " - ".toList.isPrefixOf rest then
      some [a, b, ':', c, d]
    else none
  | _ => none

/-- One-digit-hour attempt (the backtracking alternative of `\d{1,2}`). -/
def try1 : Str → Option Str
  | a :: ':' :: c :: d :: rest =>
    if a.isDigit && c.isDigit && d.isDigit && " - ".toList.isPrefixOf rest then
      some [a, ':', c, d]
    else none
  | _ => none

/-- Model of the entry-block header regex `/^## (\d{1,2}:\d{2}) - /`
(`CLASS_HEADER_REGEX`): on a line starting with `## ` followed by an
`H:MM`/`HH:MM` time and ` - `, return the captured time substring.  The greedy
`\d{1,2}` tries two digits first and backtracks to one. -/
def matchHeaderTime (l : Str) : Option Str :=
  match l with
  | '#' :: '#' :: ' ' :: rest => (try2 rest).orElse fun _ => try1 rest
  | _ => none

/-- Whether a line is an entry-block header. -/
def isHeader (l : Str) : Bool := (matchHeaderTime l).isSome

/-- Whether a line is a delimiter: `lines[i].trim() === '---'`. -/
def isDivider (l : Str) : Bool := trimStr l == "---".toList

/-- Whether a line is blank after trimming. -/
def isBlankL (l : Str) : Bool := trimStr l == []

/-- The `existingTimes` scan of `insertClassByTimeFixed`, with `i` the index
of the first line: every line whose header regex matches, paired as
(line index, normalized minutes). -/
def collectFrom (i : Nat) : List Str → List (Nat × Nat)
  | [] => []
  | l :: ls =>
    match matchHeaderTime l with
    | some t => (i, parseTimeToMinutes t) :: collectFrom (i + 1) ls
    | none => collectFrom (i + 1) ls

/-- The `existingTimes` scan of `insertClassByTimeFixed` over a whole
document. -/
def collectEntries (lines : List Str) : List (Nat × Nat) :=
  collectFrom 0 lines

/-- Stable insertion of one entry into a minutes-sorted list (ties keep the
earlier element first, as JavaScript's stable `Array.prototype.sort`). -/
def insMin (x : Nat × Nat) : List (Nat × Nat) → List (Nat × Nat)
  | [] => [x]
  | y :: ys => if x.2 ≤ y.2 then x :: y :: ys else y :: insMin x ys

/-- Model of `existingTimes.sort((a, b) => a.minutes - b.minutes)`: a stable
sort by minutes (insertion sort is extensionally the unique stable sort for
this comparator). -/
def sortByMin : List (Nat × Nat) → List (Nat × Nat)
  | [] => []
  | x :: xs => insMin x (sortByMin xs)

/-- The backward scan for a divider above the insertion point: walks the lines
above `insertIndex` from bottom to top (given here already reversed), stopping
with `some i` at the first delimiter line, and with `none` at the first
non-empty line that is neither a delimiter nor an entry header (or when the
top of the document is reached). -/
def goBack : List Str → Nat → Option Nat
  | [], _ => none
  | l :: rest, i =>
    if isDivider l then some i
    else if trimStr l ≠ [] && (matchHeaderTime l).isNone then none
    else goBack rest (i - 1)

/-- Model of `classEntry.replace(/^---\s*\n?/gm, '')`.  The Boolean argument
records whether the current position is a line start (string start or just
after a newline).  A match consumes `---` at a line start together with the
maximal run of following whitespace (the greedy `\s*` already swallows any
newline, so the trailing `\n?` matches empty); scanning resumes after the
match, at a line start exactly when the last consumed character was a
newline. -/
theorem sds_dec (c : Char) (cs : Str) :
    (((c :: cs).drop 3).dropWhile isWS).length < (c :: cs).length := by
  have h1 := (((c :: cs).drop 3).dropWhile_sublist isWS).length_le
  simp only [List.length_drop, List.length_cons] at h1 ⊢
  omega

def sdsGo : Nat → Bool → Str → Str
  | 0, _, _ => []
  | _ + 1, _, [] => []
  | n + 1, b, c :: cs =>
    if b && "---".toList.isPrefixOf (c :: cs) then
      sdsGo n ((((c :: cs).drop 3).takeWhile isWS).getLast? == some '\n')
        (((c :: cs).drop 3).dropWhile isWS)
    else c :: sdsGo n (c == '\n') cs

/-- The `/^---\s*\n?/gm` scan, entered with fuel equal to the string length
(each step strictly shrinks the string, so the fuel never runs out and
serves only to make the recursion structural). -/
def sds (b : Bool) (s : Str) : Str := sdsGo s.length b s

theorem sdsGo_fuel : ∀ {n m : Nat} (b : Bool) {s : Str},
    s.length ≤ n → s.length ≤ m → sdsGo n b s = sdsGo m b s := by
  intro n
  induction n with
  | zero =>
    intro m b s h1 _
    have hs : s = [] := List.eq_nil_of_length_eq_zero (Nat.le_zero.mp h1)
    subst hs
    cases m <;> rfl
  | succ n ih =>
    intro m b s h1 h2
    cases s with
    | nil => cases m <;> rfl
    | cons c cs =>
      cases m with
      | zero => simp at h2
      | succ m =>
        rw [sdsGo, sdsGo]
        have hd := sds_dec c cs
        by_cases hb : (b && "---".toList.isPrefixOf (c :: cs)) = true
        · rw [if_pos hb, if_pos hb]
          exact ih _ (by simp only [List.length_cons] at h1 hd ⊢; omega)
            (by simp only [List.length_cons] at h2 hd ⊢; omega)
        · rw [if_neg hb, if_neg hb,
            ih _ (by simpa using h1) (by simpa using h2)]

theorem sds_cons (b : Bool) (c : Char) (cs : Str) :
    sds b (c :: cs) =
      if b && "---".toList.isPrefixOf (c :: cs) then
        sds ((((c :: cs).drop 3).takeWhile isWS).getLast? == some '\n')
          (((c :: cs).drop 3).dropWhile isWS)
      else c :: sds (c == '\n') cs := by
  unfold sds
  rw [show (c :: cs).length = cs.length + 1 from rfl, sdsGo]
  have hd := sds_dec c cs
  by_cases hb : (b && "---".toList.isPrefixOf (c :: cs)) = true
  · rw [if_pos hb, if_pos hb]
    exact sdsGo_fuel _ (by simp only [List.length_cons] at hd ⊢; omega) le_rfl
  · rw [if_neg hb, if_neg hb, sdsGo_fuel _ (le_of_eq rfl) le_rfl]

/-- The part of a whitespace run after its last newline (used by the
backtracking in the `/\n---\s*$/gm` model). -/
def lastSeg (run : Str) : Str := (run.reverse.takeWhile (· != '\n')).reverse

theorem lastSeg_length_lt (run : Str) (h : '\n' ∈ run) :
    (lastSeg run).length < run.length := by
  unfold lastSeg
  rw [List.length_reverse]
  have hsub := List.takeWhile_sublist (l := run.reverse) (· != '\n')
  rcases lt_or_eq_of_le hsub.length_le with hlt | heq
  · simpa using hlt
  · exfalso
    have he := hsub.eq_of_length heq
    have h' : '\n' ∈ run.reverse := by simpa using h
    rw [← he] at h'
    have := List.mem_takeWhile_imp h'
    simp at this

theorem sde_dec (c : Char) (cs : Str)
    (h : '\n' ∈ (cs.drop 3).takeWhile isWS) :
    ('\n' :: (lastSeg ((cs.drop 3).takeWhile isWS) ++ (cs.drop 3).dropWhile isWS)).length
      < (c :: cs).length := by
  have hlt := lastSeg_length_lt _ h
  have h2 := ((cs.drop 3).takeWhile_sublist isWS).length_le
  have h3 := ((cs.drop 3).dropWhile_sublist isWS).length_le
  have h4 : ((cs.drop 3).takeWhile isWS).length + ((cs.drop 3).dropWhile isWS).length
      = (cs.drop 3).length := by
    rw [← List.length_append, List.takeWhile_append_dropWhile]
  simp only [List.length_cons, List.length_append, List.length_drop] at *
  omega

def sdeGo : Nat → Str → Str
  | 0, _ => []
  | _ + 1, [] => []
  | n + 1, c :: cs =>
    if c == '\n' && "---".toList.isPrefixOf cs then
      if ((cs.drop 3).dropWhile isWS).isEmpty then []
      else if ((cs.drop 3).takeWhile isWS).contains '\n' then
        sdeGo n ('\n' :: (lastSeg ((cs.drop 3).takeWhile isWS) ++ (cs.drop 3).dropWhile isWS))
      else '\n' :: sdeGo n cs
    else c :: sdeGo n cs

/-- Model of `classEntry.replace(/\n---\s*$/gm, '')`.  A match is a newline,
`---`, and a greedy whitespace run backtracked to the last position where the
multiline `$` holds (before a newline or at the end of the string); on a
failed attempt the scan resumes after the newline.  Entered with fuel equal
to the string length; each step strictly shrinks the string, so the fuel
never runs out and serves only to make the recursion structural. -/
def sde (s : Str) : Str := sdeGo s.length s

theorem sdeGo_fuel : ∀ {n m : Nat} {s : Str},
    s.length ≤ n → s.length ≤ m → sdeGo n s = sdeGo m s := by
  intro n
  induction n with
  | zero =>
    intro m s h1 _
    have hs : s = [] := List.eq_nil_of_length_eq_zero (Nat.le_zero.mp h1)
    subst hs
    cases m <;> rfl
  | succ n ih =>
    intro m s h1 h2
    cases s with
    | nil => cases m <;> rfl
    | cons c cs =>
      cases m with
      | zero => simp at h2
      | succ m =>
        rw [sdeGo, sdeGo]
        have htail : sdeGo n cs = sdeGo m cs :=
          ih (by simp only [List.length_cons] at h1 ⊢; omega)
            (by simp only [List.length_cons] at h2 ⊢; omega)
        by_cases hb : (c == '\n' && "---".toList.isPrefixOf cs) = true
        · rw [if_pos hb, if_pos hb]
          by_cases he : ((cs.drop 3).dropWhile isWS).isEmpty = true
          · rw [if_pos he, if_pos he]
          · rw [if_neg he, if_neg he]
            by_cases hc : ((cs.drop 3).takeWhile isWS).contains '\n' = true
            · rw [if_pos hc, if_pos hc]
              have hd := sde_dec c cs (by simpa using hc)
              exact ih (by simp only [List.length_cons] at h1 hd ⊢; omega)
                (by simp only [List.length_cons] at h2 hd ⊢; omega)
            · rw [if_neg hc, if_neg hc, htail]
        · rw [if_neg hb, if_neg hb, htail]

theorem sde_cons (c : Char) (cs : Str) :
    sde (c :: cs) =
      if c == '\n' && "---".toList.isPrefixOf cs then
        if ((cs.drop 3).dropWhile isWS).isEmpty then []
        else if ((cs.drop 3).takeWhile isWS).contains '\n' then
          sde ('\n' :: (lastSeg ((cs.drop 3).takeWhile isWS) ++ (cs.drop 3).dropWhile isWS))
        else '\n' :: sde cs
      else c :: sde cs := by
  unfold sde
  rw [show (c :: cs).length = cs.length + 1 from rfl, sdeGo]
  by_cases hb : (c == '\n' && "---".toList.isPrefixOf cs) = true
  · rw [if_pos hb, if_pos hb]
    by_cases he : ((cs.drop 3).dropWhile isWS).isEmpty = true
    · rw [if_pos he, if_pos he]
    · rw [if_neg he, if_neg he]
      by_cases hc : ((cs.drop 3).takeWhile isWS).contains '\n' = true
      · rw [if_pos hc, if_pos hc]
        have hd := sde_dec c cs (by simpa using hc)
        exact sdeGo_fuel (by simp only [List.length_cons] at hd ⊢; omega) le_rfl
      · rw [if_neg hc, if_neg hc, sdeGo_fuel (le_of_eq rfl) le_rfl]
  · rw [if_neg hb, if_neg hb, sdeGo_fuel (le_of_eq rfl) le_rfl]

/-- The cleaned entry lines:
`classEntry.replace(/^---\s*\n?/gm, '').replace(/\n---\s*$/gm, '').trim().split('\n')`. -/
def cleanedLines (e : Str) : List Str :=
  splitNL (trimStr (sde (sds true e)))

/-- Model of `ParserService.insertClassByTimeFixed`: scans the document for
entry-block headers, records an exact-time conflict, stable-sorts the headers
by minutes, inserts the new entry before the first strictly later existing
entry (reusing an immediately preceding delimiter when the backward scan
finds one, otherwise appending a fresh delimiter after the new block), or
appends the raw entry at the end of the document when no later entry
exists.  Returns the new document text and the conflict flag. -/
def insertClassByTimeFixed (content e newTime _className : Str) : Str × Bool :=
  let lines := splitNL content
  let newMin := parseTimeToMinutes newTime
  let entries := collectEntries lines
  let conflict := entries.any fun p => p.2 == newMin
  match (sortByMin entries).find? fun p => decide (newMin < p.2) with
  | none => (content ++ '\n' :: (e ++ ['\n']), conflict)
  | some p =>
    let insertIdx := p.1
    let ins :=
      match goBack (lines.take insertIdx).reverse (insertIdx - 1) with
      | some i => (i, "---".toList :: ([] : Str) :: (cleanedLines e ++ [([] : Str)]))
      | none => (insertIdx, cleanedLines e ++ [([] : Str), "---".toList])
    (joinNL (lines.take ins.1 ++ ins.2 ++ lines.drop ins.1), conflict)

/-- The three schedule classifications. -/
inductive SchedType where
  | regular
  | early_dismissal
  | testing_day
deriving DecidableEq, Repr

/-- The two special-schedule date sets parsed from `Special Schedules.md`. -/
structure SpecialSchedules where
  early_dismissal : List Str
  testing_day : List Str
deriving DecidableEq, Repr

/-- Model of `ScheduleService.getScheduleType` /
`UnitAssignmentService.getScheduleTypeForDate` (identical bodies): membership
in the early-dismissal set wins, then the testing-day set, else regular. -/
def getScheduleTypeForDate (date : Str) (ss : SpecialSchedules) : SchedType :=
  if ss.early_dismissal.contains date then SchedType.early_dismissal
  else if ss.testing_day.contains date then SchedType.testing_day
  else SchedType.regular

/-- The (time, note, needsReview) triple returned by effective-time
resolution. -/
structure TimeResolution where
  time : Str
  note : Str
  needsReview : Bool
deriving DecidableEq, Repr

/-- Model of the `switch (scheduleType)` of
`ScheduleService.getTimeForScheduleType`, given an already-parsed class
schedule (the enclosing file-read failure branches, which return a 12:00
placeholder, are storage-layer concerns outside this resolution logic).
JavaScript truthiness makes an empty string count as absent. -/
def getTimeForScheduleType (regularTime : Str) (edt tdt : Option Str)
    (ty : SchedType) : TimeResolution :=
  match ty with
  | SchedType.early_dismissal =>
    match edt with
    | some t =>
      if t ≠ [] && t ≠ "TBD".toList then
        ⟨t, " (Early Dismissal)".toList, false⟩
      else
        ⟨regularTime, " (⚠️ Early Dismissal - check time manually)".toList, true⟩
    | none =>
      ⟨regularTime, " (⚠️ Early Dismissal - check time manually)".toList, true⟩
  | SchedType.testing_day =>
    match tdt with
    | some t =>
      if t ≠ [] && t ≠ regularTime then
        ⟨t, " (Testing Day)".toList, false⟩
      else
        ⟨regularTime, " (⚠️ Testing Day - update testing_day_time when known)".toList, true⟩
    | none =>
      ⟨regularTime, " (⚠️ Testing Day - update testing_day_time when known)".toList, true⟩
  | SchedType.regular => ⟨regularTime, [], false⟩

/-- Model of the inline effective-time resolution in
`UnitAssignmentService.createDailyPlanEntry` (lines 588-611): like
`getTimeForScheduleType` but the early-dismissal presence check additionally
requires the configured time to be non-blank after trimming, and the warning
notes differ. -/
def resolveTimeInline (regularTime : Str) (edt tdt : Option Str)
    (ty : SchedType) : TimeResolution :=
  match ty with
  | SchedType.early_dismissal =>
    match edt with
    | some t =>
      if t ≠ [] && trimStr t ≠ [] && t ≠ "TBD".toList then
        ⟨t, " (Early Dismissal)".toList, false⟩
      else
        ⟨regularTime,
          " (⚠️ Early Dismissal - using regular time, adjust manually)".toList, true⟩
    | none =>
      ⟨regularTime,
        " (⚠️ Early Dismissal - using regular time, adjust manually)".toList, true⟩
  | SchedType.testing_day =>
    match tdt with
    | some t =>
      if t ≠ [] && t ≠ regularTime then
        ⟨t, " (Testing Day)".toList, false⟩
      else
        ⟨regularTime,
          " (⚠️ Testing Day - using regular time, update testing_day_time when known)".toList,
          true⟩
    | none =>
      ⟨regularTime,
        " (⚠️ Testing Day - using regular time, update testing_day_time when known)".toList,
        true⟩
  | SchedType.regular => ⟨regularTime, [], false⟩

/-- Civil-calendar day number (days since 1970-01-01) of a Gregorian date,
via Howard Hinnant's algorithm; linear in `d`, so out-of-range days of month
extend correctly, matching JavaScript `Date` day arithmetic. -/
def daysFromCivil (y m d : Int) : Int :=
  let y1 := if m ≤ 2 then y - 1 else y
  let era := Int.fdiv y1 400
  let yoe := y1 - era * 400
  let mp := if m > 2 then m - 3 else m + 9
  let doy := Int.ediv (153 * mp + 2) 5 + d - 1
  let doe := yoe * 365 + Int.ediv yoe 4 - Int.ediv yoe 100 + doy
  era * 146097 + doe - 719468

/-- Inverse of `daysFromCivil` (Hinnant's `civil_from_days`). -/
def civilFromDays (z0 : Int) : Int × Int × Int :=
  let z := z0 + 719468
  let era := Int.fdiv z 146097
  let doe := z - era * 146097
  let yoe := Int.ediv (doe - Int.ediv doe 1460 + Int.ediv doe 36524
    - Int.ediv doe 146096) 365
  let y := yoe + era * 400
  let doy := doe - (365 * yoe + Int.ediv yoe 4 - Int.ediv yoe 100)
  let mp := Int.ediv (5 * doy + 2) 153
  let d := doy - Int.ediv (153 * mp + 2) 5 + 1
  let m := if mp < 10 then mp + 3 else mp - 9
  (if m ≤ 2 then y + 1 else y, m, d)

/-- Model of `Date.prototype.getDay` in the zero-offset model: day number 0
(1970-01-01) is a Thursday (4). -/
def jsGetDay (z : Int) : Int := (z + 4) % 7

/-- Zero-padded decimal rendering of a non-negative integer. -/
def padNum (width : Nat) (n : Int) : Str :=
  let ds := Nat.toDigits 10 n.toNat
  List.replicate (width - ds.length) '0' ++ ds

/-- Model of `currentDate.toISOString().split('T')[0]` in the zero-offset
model, for years 0-9999 (the range reachable from validated inputs; larger
years use an expanded format in JavaScript that never arises here). -/
def isoOfDay (z : Int) : Str :=
  let c := civilFromDays z
  padNum 4 c.1 ++ '-' :: (padNum 2 c.2.1 ++ '-' :: padNum 2 c.2.2)

/-- Model of `new Date(y, mIdx, d)`'s day-number: two-digit years shift to
19xx, the month index normalizes with floor semantics, and the day of month
is unconstrained. -/
def jsMakeDay (y mIdx d : Int) : Int :=
  let y1 := if 0 ≤ y ∧ y ≤ 99 then y + 1900 else y
  daysFromCivil (y1 + Int.fdiv mIdx 12) (Int.emod mIdx 12 + 1) d

/-- The `dayMap` lookup of `calculateClassDates`; an unknown name throws in
the source, modelled as `none`. -/
def dayOfWeekIndex (w : Str) : Option Int :=
  if w = "Sunday".toList then some 0
  else if w = "Monday".toList then some 1
  else if w = "Tuesday".toList then some 2
  else if w = "Wednesday".toList then some 3
  else if w = "Thursday".toList then some 4
  else if w = "Friday".toList then some 5
  else if w = "Saturday".toList then some 6
  else none

/-- Model of `s.split('-')`. -/
def splitDash : Str → List Str
  | [] => [[]]
  | c :: rest =>
    if c = '-' then [] :: splitDash rest
    else
      match splitDash rest with
      | [] => [[c]]
      | l :: ls => (c :: l) :: ls

/-- Decimal value of a digit string. -/
def digitsToNat (s : Str) : Nat := s.foldl (fun acc c => 10 * acc + dval c) 0

/-- Model of JavaScript `Number(part)` / `parseInt(part)` on the pieces of a
date string, for the digit-string shapes that validated `YYYY-MM-DD` inputs
produce; any other shape yields NaN in the source and is modelled as
`none`. -/
def jsNumberDigits (s : Str) : Option Int :=
  if s ≠ [] ∧ s.all Char.isDigit then some (digitsToNat s : Int) else none

/-- The `const [year, month, day] = startDate.split('-')` destructuring plus
numeric conversion. -/
def parseStartDate (s : Str) : Option (Int × Int × Int) :=
  match (splitDash s).get? 0, (splitDash s).get? 1, (splitDash s).get? 2 with
  | some ys, some ms, some ds =>
    match jsNumberDigits ys, jsNumberDigits ms, jsNumberDigits ds with
    | some y, some m, some d => some (y, m, d)
    | _, _, _ => none
  | _, _, _ => none

/-- The initial weekday adjustment of `calculateClassDates`: advance to the
first day on/after the start falling on the target weekday. -/
def adjustToWeekday (z0 target : Int) : Int :=
  if jsGetDay z0 ≠ target then z0 + (target - jsGetDay z0 + 7) % 7 else z0

/-- The holiday-skipping week-stepping loop of `calculateClassDates`
(`while (dates.length < duration)`), with explicit fuel: the source loop has
no bound, so a run that needs more than `fuel` iterations is `none`. -/
def collectDates (holidays : List Str) : Nat → Int → Nat → Option (List Str)
  | _, _, 0 => some []
  | 0, _, _ + 1 => none
  | f + 1, cur, n + 1 =>
    if holidays.contains (isoOfDay cur) then
      collectDates holidays f (cur + 7) (n + 1)
    else
      (collectDates holidays f (cur + 7) n).map (fun l => isoOfDay cur :: l)

/-- Model of `ScheduleService.calculateClassDates` (and the identical
`UnitAssignmentService.calculateClassDates`): resolve the weekday, parse the
start date, build the `Date`, adjust to the target weekday, then collect
`duration` non-holiday dates stepping a week at a time. -/
def calculateClassDates (startDate w : Str) (duration : Nat)
    (holidays : List Str) (fuel : Nat) : Option (List Str) :=
  match dayOfWeekIndex w with
  | none => none
  | some target =>
    match parseStartDate startDate with
    | none => none
    | some (y, m, d) =>
      collectDates holidays fuel
        (adjustToWeekday (jsMakeDay y (m - 1) d) target) duration

/-- The normalized times of the entry-block headers of a list of lines, in
top-to-bottom order. -/
def hdrMinsL (lines : List Str) : List Nat :=
  lines.filterMap fun l => (matchHeaderTime l).map parseTimeToMinutes

/-- The normalized times of the entry-block headers of a document text, in
top-to-bottom order. -/
def headerMins (s : Str) : List Nat :=
  hdrMinsL (splitNL s)

/-- Index of the first occurrence of `pat` in `s` (JavaScript
`String.prototype.indexOf`), `none` when absent. -/
def findSub (pat s : Str) : Option Nat :=
  (List.range (s.length + 1)).find? (fun i => pat.isPrefixOf (s.drop i))

/-- Model of `s.indexOf(pat, start)`: first occurrence at or after `start`. -/
def findSubFrom (start : Nat) (pat s : Str) : Option Nat :=
  (findSub pat (s.drop start)).map (· + start)

/-- Model of `s.split(',')`. -/
def splitComma : Str → List Str
  | [] => [[]]
  | c :: rest =>
    if c = ',' then [] :: splitComma rest
    else
      match splitComma rest with
      | [] => [[c]]
      | l :: ls => (c :: l) :: ls

/-- Model of `.replace(/['"]/g, '')`: drop every single or double quote. -/
def stripQuotes (s : Str) : Str :=
  s.filter (fun c => !(c == Char.ofNat 39 || c == '"'))

/-- Lexicographic comparison by code point, the default JavaScript
`Array.prototype.sort` string order (identical to UTF-16 unit order on the
basic-multilingual-plane names that occur here). -/
def strLtB : Str → Str → Bool
  | [], [] => false
  | [], _ :: _ => true
  | _ :: _, [] => false
  | a :: as, b :: bs =>
    if a.toNat < b.toNat then true
    else if b.toNat < a.toNat then false
    else strLtB as bs

/-- Stable insertion of a string into a sorted list: after every
strictly-smaller element, before equal ones. -/
def insStr (x : Str) : List Str → List Str
  | [] => [x]
  | y :: ys => if strLtB y x then y :: insStr x ys else x :: y :: ys

/-- Stable sort in the default JavaScript string order. -/
def sortStrs : List Str → List Str
  | [] => []
  | x :: xs => insStr x (sortStrs xs)

/-- Join with a separator (`Array.prototype.join`). -/
def joinSep (sep : Str) : List Str → Str
  | [] => []
  | [x] => x
  | x :: xs => x ++ sep ++ joinSep sep xs

/-- The class-list parsing shared by `updateClassesList`: split the captured
group on commas, trim, strip quotes, drop empties (nothing when the group is
blank). -/
def parseClassList (s : Str) : List Str :=
  if trimStr s = [] then []
  else ((splitComma s).map (fun c => stripQuotes (trimStr c))).filter
    (fun c => c.length ≠ 0)

/-- The first match of `/classes: \[(.*?)\]/s` in `content`, as the position
of `classes: [` and the length of the lazily captured group: the group runs
to the first `]` after the opener (the `s` flag lets it cross newlines). A
later opener can only complete a match if the first one does, so the first
opener is the match's start. -/
def fmSpan (content : Str) : Option (Nat × Nat) :=
  match findSub ("classes: [".toList) content with
  | none => none
  | some i =>
    match findSub ("]".toList) (content.drop (i + 10)) with
    | none => none
    | some k => some (i, k)

/-- Model of `ParserService.updateClassesList` for the `'add'` action (the
only action the assignment workflow invokes): rewrite the first
`classes: [...]` frontmatter span with the class added (if absent) and the
list sorted; when no span matches, splice a fresh `classes:` line before the
first `---` at index 3 or later, or return the content unchanged when there
is none. -/
def updateClassesList (content className : Str) : Str :=
  match fmSpan content with
  | none =>
    match findSubFrom 3 ("---".toList) content with
    | none => content
    | some e =>
      content.take e ++ ("classes: [".toList ++ ('"' :: className ++ ['"'])
        ++ "]".toList ++ ['\n']) ++ content.drop e
  | some (i, k) =>
    let cl0 := parseClassList ((content.drop (i + 10)).take k)
    let cl1 := if cl0.contains className then cl0 else cl0 ++ [className]
    let str := joinSep (", ".toList)
      ((sortStrs cl1).map (fun c => '"' :: c ++ ['"']))
    content.take i ++ ("classes: [".toList ++ str ++ "]".toList)
      ++ content.drop (i + 10 + k + 1)

/-- Decimal rendering of a day count. -/
def natStr (n : Nat) : Str := Nat.toDigits 10 n

/-- The `classEntry` template literal of
`UnitAssignmentService.createDailyPlanEntry`, byte for byte (including the
two trailing spaces after the unit link and the day count). -/
def classEntryText (classTime className scheduleNote unitName : Str)
    (dayNumber totalDays : Nat) : Str :=
  "\n\n## ".toList ++ classTime ++ " - ".toList ++ className ++ scheduleNote ++
  "\n\n**Unit:** [[".toList ++ unitName ++
  "]]  \n**Day:** ".toList ++ natStr dayNumber ++ " of ".toList ++
  natStr totalDays ++
  "  \n**Lesson:** Day ".toList ++ natStr dayNumber ++
  "\n\n### Quick Reference\n\n![[".toList ++ unitName ++ "#Day ".toList ++
  natStr dayNumber ++ "]]\n\n---\n\n".toList

/-- Model of the duplicate check's regex
`new RegExp('## [^\\n]*' + escaped(className) + '[^\\n]*$', 'm')`: some line
of the content contains `## ` followed, later on the same line, by the
class name (the escaping in the source makes the name a literal). -/
def classRegexTest (className content : Str) : Bool :=
  (splitNL content).any fun l =>
    l.tails.any fun t =>
      match t with
      | '#' :: '#' :: ' ' :: rest =>
        rest.tails.any fun t2 => className.isPrefixOf t2
      | _ => false

/-- The vault as the merger sees it: daily-plan documents keyed by date (the
path `Daily Plans/DATE.md` is determined by the date). -/
abbrev Store := List (Str × Str)

/-- Content of the daily-plan document for a date, if it exists. -/
def storeGet (st : Store) (k : Str) : Option Str :=
  (st.find? (fun p => p.1 == k)).map (·.2)

/-- Write a daily-plan document (modify in place or append). -/
def storeSet (st : Store) (k v : Str) : Store :=
  match st with
  | [] => [(k, v)]
  | p :: rest => if p.1 == k then (k, v) :: rest else p :: storeSet rest k v

/-- The result triple of `createDailyPlanEntry`; the source's optional
fields read back as `false` when omitted. -/
structure EntryResult where
  success : Bool
  skipped : Bool
  hasScheduleWarning : Bool
deriving DecidableEq, Repr

/-- Model of `UnitAssignmentService.createDailyPlanEntry`. The source calls
`this.fileService.fileExists(path)` WITHOUT `await`; the returned Promise is
always truthy, so the read branch always runs and the new-plan template
branch is dead. For a date with no document, `readFile` resolves to `null`,
the duplicate regex tests the string `"null"` (no match), and
`insertClassByTimeFixed` then throws on `null.split('\n')`; the surrounding
`catch` returns `success: false` — modelled as the `none` case. Otherwise:
return skipped on a duplicate header; else resolve the effective time
inline, build the entry, insert it in time order, update the frontmatter
class list, and write the document back. -/
def createDailyPlanEntry (st : Store) (date className unitName : Str)
    (dayNumber totalDays : Nat) (regularTime : Str) (edt tdt : Option Str)
    (ss : SpecialSchedules) : Store × EntryResult :=
  match storeGet st date with
  | none => (st, ⟨false, false, false⟩)
  | some content =>
    if classRegexTest className content then (st, ⟨true, true, false⟩)
    else
      let tr := resolveTimeInline regularTime edt tdt
        (getScheduleTypeForDate date ss)
      let entry := classEntryText tr.time className tr.note unitName
        dayNumber totalDays
      let ins := insertClassByTimeFixed content entry tr.time className
      let content2 := updateClassesList ins.1 className
      (storeSet st date content2, ⟨true, false, tr.needsReview⟩)

/-- The per-run tallies of `assignUnitToClassWithOptions`. -/
structure AssignCounts where
  createdPlans : Nat
  skippedPlans : Nat
  scheduleWarnings : Nat
deriving DecidableEq, Repr

/-- The counting loop of `assignUnitToClassWithOptions` over the computed
dates (day numbers are 1-based): `if (result.success) createdPlans++;
if (result.skipped) skippedPlans++; if (result.hasScheduleWarning)
scheduleWarnings++`. -/
def assignGo (className unitName : Str) (totalDays : Nat) (regularTime : Str)
    (edt tdt : Option Str) (ss : SpecialSchedules) :
    Store → Nat → List Str → Store × AssignCounts
  | st, _, [] => (st, ⟨0, 0, 0⟩)
  | st, i, date :: rest =>
    let r := createDailyPlanEntry st date className unitName (i + 1) totalDays
      regularTime edt tdt ss
    let acc := assignGo className unitName totalDays regularTime edt tdt ss
      r.1 (i + 1) rest
    (acc.1,
      ⟨(if r.2.success then 1 else 0) + acc.2.createdPlans,
       (if r.2.skipped then 1 else 0) + acc.2.skippedPlans,
       (if r.2.hasScheduleWarning then 1 else 0) + acc.2.scheduleWarnings⟩)

/-- One entry block as laid out in a merged daily-plan document: the header
line, the body lines, the block's single trailing delimiter, and blank
padding after it. -/
structure Seg where
  hdr : Str
  body : List Str
  pad : List Str

/-- The lines of one block: header, body, delimiter, padding. -/
def segLines (s : Seg) : List Str := s.hdr :: s.body ++ "---".toList :: s.pad

/-- Structural well-formedness of one block: a real entry header, a body free
of delimiters and headers containing at least one non-blank line, and
all-blank padding. -/
def SegOK (s : Seg) : Prop :=
  isHeader s.hdr = true ∧
  (∀ l ∈ s.body, isDivider l = false ∧ isHeader l = false) ∧
  (∃ l ∈ s.body, trimStr l ≠ []) ∧
  (∀ l ∈ s.pad, trimStr l = [])

/-- The lines of a list of blocks. -/
def flatSegs (segs : List Seg) : List Str := (segs.map segLines).flatten

/-- A daily-plan preamble (frontmatter, title, blank lines): it contains no
entry headers, and its last non-blank line is neither a delimiter nor a
header (the skeleton's `# ...` title line), so the backward delimiter scan
of a merge can never escape into it. -/
def PreOK (P : List Str) : Prop :=
  (∀ l ∈ P, isHeader l = false) ∧
  ∃ P0 g Pb, P = P0 ++ g :: Pb ∧ trimStr g ≠ [] ∧ isHeader g = false ∧
    isDivider g = false ∧ ∀ l ∈ Pb, trimStr l = []

/-- The layout invariant of an engine-built daily-plan document: a preamble
followed by a run of well-formed entry blocks, each carrying exactly one
trailing delimiter. -/
def DocInv (lines : List Str) : Prop :=
  ∃ P segs, lines = P ++ flatSegs segs ∧ PreOK P ∧ ∀ s ∈ segs, SegOK s

/-- Well-formedness of one merge's raw entry text, as the `classEntry`
template produces it: divider-cleaning yields a header plus a body with no
delimiters or headers and some non-blank line, and the raw text is two blank
lines, the cleaned block, a blank line, the delimiter, and two trailing
blank lines. -/
def EntryOK (e hdr : Str) (cbody : List Str) : Prop :=
  cleanedLines e = hdr :: cbody ∧
  splitNL e = ([] : Str) :: ([] : Str) :: hdr :: (cbody
    ++ [([] : Str), "---".toList, ([] : Str), ([] : Str)]) ∧
  isHeader hdr = true ∧
  (∀ l ∈ cbody, isDivider l = false ∧ isHeader l = false) ∧
  (∃ l ∈ cbody, trimStr l ≠ [])

/-- A sequence of merges applied to one document: each step inserts one
entry text at its time. -/
def mergeFold (content : Str) : List (Str × Str × Str) → Str
  | [] => content
  | m :: ms => mergeFold (insertClassByTimeFixed content m.1 m.2.1 m.2.2).1 ms

theorem splitNL_ne_nil (s : Str) : splitNL s ≠ [] := by
  cases s with
  | nil => simp [splitNL]
  | cons c cs =>
    rw [splitNL]
    by_cases h : c = '\n'
    · simp [h]
    · rw [if_neg h]
      cases splitNL cs <;> simp

theorem splitNL_append (a b : Str) :
    splitNL (a ++ '\n' :: b) = splitNL a ++ splitNL b := by
  induction a with
  | nil => simp [splitNL]
  | cons c cs ih =>
    rw [List.cons_append, splitNL, splitNL]
    by_cases h : c = '\n'
    · rw [if_pos h, if_pos h, ih]
      simp
    · rw [if_neg h, if_neg h, ih]
      cases hcs : splitNL cs with
      | nil => exact absurd hcs (splitNL_ne_nil cs)
      | cons l ls => simp

theorem noNL_of_mem_splitNL {l : Str} {s : Str} (h : l ∈ splitNL s) : noNL l := by
  induction s generalizing l with
  | nil =>
    simp only [splitNL, List.mem_singleton] at h
    subst h; simp [noNL]
  | cons c cs ih =>
    rw [splitNL] at h
    by_cases hc : c = '\n'
    · rw [if_pos hc] at h
      rcases List.mem_cons.mp h with h | h
      · subst h; simp [noNL]
      · exact ih h
    · rw [if_neg hc] at h
      cases hcs : splitNL cs with
      | nil => exact absurd hcs (splitNL_ne_nil cs)
      | cons x xs =>
        rw [hcs] at h
        rcases List.mem_cons.mp h with h | h
        · subst h
          have hx : x ∈ splitNL cs := by rw [hcs]; exact List.mem_cons_self x xs
          have hnx := ih hx
          simp only [noNL, List.mem_cons, not_or] at *
          exact ⟨fun hh => hc hh.symm, hnx⟩
        · exact ih (by rw [hcs]; exact List.mem_cons_of_mem x h)

theorem splitNL_nlfree {x : Str} (hx : noNL x) : splitNL x = [x] := by
  induction x with
  | nil => simp [splitNL]
  | cons c cs ihc =>
    simp only [noNL, List.mem_cons, not_or] at hx
    rw [splitNL, if_neg (fun hh => hx.1 hh.symm), ihc hx.2]

theorem splitNL_joinNL (ls : List Str) (h : ∀ l ∈ ls, noNL l) (hne : ls ≠ []) :
    splitNL (joinNL ls) = ls := by
  induction ls with
  | nil => exact absurd rfl hne
  | cons x xs ih =>
    cases xs with
    | nil => exact splitNL_nlfree (h x (List.mem_cons_self x []))
    | cons y ys =>
      have hx : noNL x := h x (List.mem_cons_self x (y :: ys))
      have hjoin : joinNL (x :: y :: ys) = x ++ '\n' :: joinNL (y :: ys) := rfl
      rw [hjoin, splitNL_append,
        ih (fun l hl => h l (List.mem_cons_of_mem x hl)) (by simp),
        splitNL_nlfree hx]
      simp

theorem hdrMinsL_append (a b : List Str) :
    hdrMinsL (a ++ b) = hdrMinsL a ++ hdrMinsL b := by
  simp [hdrMinsL, List.filterMap_append]

theorem collectFrom_append (i : Nat) (a b : List Str) :
    collectFrom i (a ++ b) = collectFrom i a ++ collectFrom (i + a.length) b := by
  induction a generalizing i with
  | nil => simp [collectFrom]
  | cons l ls ih =>
    simp only [List.cons_append, collectFrom]
    cases matchHeaderTime l with
    | none =>
      have hh := ih (i + 1)
      rw [show i + 1 + ls.length = i + (ls.length + 1) from by omega] at hh
      simpa using hh
    | some t =>
      have hh := ih (i + 1)
      rw [show i + 1 + ls.length = i + (ls.length + 1) from by omega] at hh
      simpa using hh

theorem collectFrom_idx {i : Nat} {ls : List Str} {q : Nat × Nat}
    (h : q ∈ collectFrom i ls) : i ≤ q.1 ∧ q.1 < i + ls.length := by
  induction ls generalizing i with
  | nil => simp [collectFrom] at h
  | cons l ls ih =>
    rw [collectFrom] at h
    cases hm : matchHeaderTime l with
    | none =>
      rw [hm] at h
      have := ih h
      simp only [List.length_cons]
      omega
    | some t =>
      rw [hm] at h
      rcases List.mem_cons.mp h with h | h
      · subst h; simp
      · have := ih h
        simp only [List.length_cons]
        omega

theorem collectFrom_map_snd (i : Nat) (ls : List Str) :
    (collectFrom i ls).map Prod.snd = hdrMinsL ls := by
  induction ls generalizing i with
  | nil => simp [collectFrom, hdrMinsL]
  | cons l ls ih =>
    rw [collectFrom]
    cases hm : matchHeaderTime l with
    | none => simp [hdrMinsL, List.filterMap_cons, hm, ih (i + 1)]
    | some t => simp [hdrMinsL, List.filterMap_cons, hm, ih (i + 1)]

theorem mem_insMin {x y : Nat × Nat} {l : List (Nat × Nat)} :
    y ∈ insMin x l ↔ y = x ∨ y ∈ l := by
  induction l with
  | nil => simp [insMin]
  | cons z zs ih =>
    rw [insMin]
    by_cases h : x.2 ≤ z.2
    · simp [h]
    · rw [if_neg h]
      simp only [List.mem_cons, ih]
      tauto

theorem mem_sortByMin {y : Nat × Nat} {l : List (Nat × Nat)} :
    y ∈ sortByMin l ↔ y ∈ l := by
  induction l with
  | nil => simp [sortByMin]
  | cons x xs ih =>
    rw [sortByMin, mem_insMin, ih]
    simp

theorem sortByMin_eq_self {l : List (Nat × Nat)}
    (h : List.Chain' (fun a b => a.2 ≤ b.2) l) : sortByMin l = l := by
  induction l with
  | nil => simp [sortByMin]
  | cons x xs ih =>
    rw [sortByMin, ih h.tail]
    cases xs with
    | nil => simp [insMin]
    | cons y ys =>
      rw [insMin, if_pos]
      exact List.chain'_cons.mp h |>.1

theorem matchHeaderTime_shape {l : Str} {t : Str} (h : matchHeaderTime l = some t) :
    ∃ rest, l = '#' :: '#' :: ' ' :: rest := by
  unfold matchHeaderTime at h
  split at h
  · next rest => exact ⟨rest, rfl⟩
  · simp at h

theorem trimStr_cons_head {c : Char} (cs : Str) (hc : isWS c = false) :
    trimStr (c :: cs) = c :: (cs.reverse.dropWhile isWS).reverse := by
  unfold trimStr
  rw [List.dropWhile_cons, if_neg (by simp [hc]), List.reverse_cons, List.dropWhile_append]
  by_cases he : (cs.reverse.dropWhile isWS).isEmpty
  · rw [if_pos he]
    rw [List.isEmpty_iff] at he
    rw [he]
    simp [List.dropWhile, hc]
  · rw [if_neg he]
    simp

theorem isHeader_false_of_isDivider {l : Str} (h : isDivider l = true) :
    isHeader l = false := by
  by_contra hh
  rw [Bool.not_eq_false, isHeader, Option.isSome_iff_exists] at hh
  obtain ⟨t, ht⟩ := hh
  obtain ⟨rest, rfl⟩ := matchHeaderTime_shape ht
  rw [isDivider, trimStr_cons_head _ (by decide), beq_iff_eq] at h
  rw [show "---".toList = ['-', '-', '-'] from rfl] at h
  simp at h

theorem findSplit {α : Type} {p : α → Bool} {l : List α} {a : α}
    (h : l.find? p = some a) :
    ∃ l1 l2, l = l1 ++ a :: l2 ∧ ∀ x ∈ l1, p x = false := by
  induction l with
  | nil => simp [List.find?] at h
  | cons x xs ih =>
    rw [List.find?] at h
    by_cases hx : p x
    · rw [hx] at h
      simp only [Option.some.injEq] at h
      exact ⟨[], xs, by simp [h], by simp⟩
    · rw [Bool.not_eq_true] at hx
      rw [hx] at h
      obtain ⟨l1, l2, heq, hall⟩ := ih h
      refine ⟨x :: l1, l2, by rw [heq]; rfl, ?_⟩
      intro y hy
      rcases List.mem_cons.mp hy with hy | hy
      · subst hy; exact hx
      · exact hall y hy

theorem firstOccSplit {α : Type} {p : α} :
    ∀ {L1 M1 : List α} {L2 M2 : List α},
      L1 ++ p :: L2 = M1 ++ p :: M2 → p ∉ L1 → p ∉ M1 → L1 = M1 ∧ L2 = M2 := by
  intro L1
  induction L1 with
  | nil =>
    intro M1 L2 M2 heq hL hM
    cases M1 with
    | nil => simpa using heq
    | cons y ys =>
      simp only [List.nil_append, List.cons_append, List.cons.injEq] at heq
      exact absurd (heq.1 ▸ List.mem_cons_self y ys : p ∈ y :: ys) (heq.1 ▸ hM)
  | cons x xs ih =>
    intro M1 L2 M2 heq hL hM
    cases M1 with
    | nil =>
      simp only [List.cons_append, List.nil_append, List.cons.injEq] at heq
      exact absurd (heq.1 ▸ List.mem_cons_self x xs) (heq.1 ▸ hL)
    | cons y ys =>
      simp only [List.cons_append, List.cons.injEq] at heq
      have hL' : p ∉ xs := fun hm => hL (List.mem_cons_of_mem x hm)
      have hM' : p ∉ ys := fun hm => hM (List.mem_cons_of_mem y hm)
      obtain ⟨h1, h2⟩ := ih heq.2 hL' hM'
      exact ⟨by rw [heq.1, h1], h2⟩

/-- What the backward divider scan guarantees when it succeeds: the scanned
prefix splits as `A ++ d :: B` where `d` is the delimiter found at index
`|A|`, and everything below it (`B`) was skipped, i.e. is a non-delimiter
line that is blank or an entry header. -/
theorem goBack_some {L : List Str} {i : Nat}
    (h : goBack L.reverse (L.length - 1) = some i) :
    ∃ A d B, L = A ++ d :: B ∧ A.length = i ∧ isDivider d = true ∧
      ∀ l ∈ B, isDivider l = false ∧
        (trimStr l = [] ∨ (matchHeaderTime l).isSome = true) := by
  induction L using List.reverseRecOn generalizing i with
  | nil => simp [goBack] at h
  | append_singleton L' x ih =>
    rw [List.reverse_append, List.reverse_singleton, List.singleton_append] at h
    have hlen : (L' ++ [x]).length - 1 = L'.length := by simp
    rw [hlen, goBack] at h
    by_cases hd : isDivider x = true
    · rw [if_pos hd] at h
      simp only [Option.some.injEq] at h
      exact ⟨L', x, [], rfl, h, hd, by simp⟩
    · rw [if_neg hd] at h
      by_cases hs : (decide (trimStr x ≠ []) && (matchHeaderTime x).isNone) = true
      · rw [if_pos hs] at h
        simp at h
      · rw [if_neg hs] at h
        obtain ⟨A, d, B, hL, hA, hdiv, hB⟩ := ih h
        refine ⟨A, d, B ++ [x], by rw [hL]; simp, hA, hdiv, ?_⟩
        intro l hl
        rcases List.mem_append.mp hl with hl | hl
        · exact hB l hl
        · rw [List.mem_singleton] at hl
          subst hl
          simp only [Bool.and_eq_true, decide_eq_true_eq, not_and_or, not_not] at hs
          constructor
          · simpa using hd
          · rcases hs with hs | hs
            · exact Or.inl hs
            · refine Or.inr ?_
              rw [Option.isSome_iff_ne_none]
              intro hnone
              exact hs (by rw [hnone]; rfl)

/-- The gap hypothesis: between any two consecutive entry-block header lines
there is at least one line that is neither blank nor an entry-block header.
Documents produced by the merge engine satisfy this (each block's body
contains non-blank text and a delimiter). -/
def GapOK (lines : List Str) : Prop :=
  ∀ A h M h' B, lines = A ++ h :: (M ++ h' :: B) → isHeader h = true →
    isHeader h' = true → (∀ l ∈ M, isHeader l = false) →
    ∃ l ∈ M, trimStr l ≠ [] ∧ isHeader l = false

theorem lastHeaderSplit {B : List Str} (h : ∃ l ∈ B, isHeader l = true) :
    ∃ B1 hh B2, B = B1 ++ hh :: B2 ∧ isHeader hh = true ∧
      ∀ l ∈ B2, isHeader l = false := by
  induction B using List.reverseRecOn with
  | nil => simp at h
  | append_singleton B' x ih =>
    by_cases hx : isHeader x = true
    · exact ⟨B', x, [], rfl, hx, by simp⟩
    · obtain ⟨l, hl, hhl⟩ := h
      rcases List.mem_append.mp hl with hl | hl
      · obtain ⟨B1, hh, B2, heq, hhh, hB2⟩ := ih ⟨l, hl, hhl⟩
        refine ⟨B1, hh, B2 ++ [x], by rw [heq]; simp, hhh, ?_⟩
        intro l' hl'
        rcases List.mem_append.mp hl' with hl' | hl'
        · exact hB2 l' hl'
        · rw [List.mem_singleton] at hl'
          subst hl'
          simpa using hx
      · rw [List.mem_singleton] at hl
        subst hl
        exact absurd hhl hx

theorem hdrMinsL_cons_some {l : Str} {t : Str} (h : matchHeaderTime l = some t)
    (ls : List Str) :
    hdrMinsL (l :: ls) = parseTimeToMinutes t :: hdrMinsL ls := by
  simp [hdrMinsL, List.filterMap_cons, h]

theorem hdrMinsL_cons_none {l : Str} (h : matchHeaderTime l = none) (ls : List Str) :
    hdrMinsL (l :: ls) = hdrMinsL ls := by
  simp [hdrMinsL, List.filterMap_cons, h]

theorem hdrMinsL_nil_of_no_headers {ls : List Str}
    (h : ∀ l ∈ ls, isHeader l = false) : hdrMinsL ls = [] := by
  rw [hdrMinsL, List.filterMap_eq_nil_iff]
  intro l hl
  have hh := h l hl
  rw [isHeader] at hh
  cases hmt : matchHeaderTime l with
  | none => rfl
  | some t => rw [hmt] at hh; simp at hh

theorem noNL_cleanedLines {e l : Str} (h : l ∈ cleanedLines e) : noNL l :=
  noNL_of_mem_splitNL h

theorem insert_result_cases (content e t n : Str) :
    splitNL (insertClassByTimeFixed content e t n).1
        = splitNL content ++ (splitNL e ++ [[]]) ∨
    (∃ a ins, splitNL (insertClassByTimeFixed content e t n).1
        = (splitNL content).take a ++ ins ++ (splitNL content).drop a ∧
        (ins = "---".toList :: ([] : Str) :: (cleanedLines e ++ [([] : Str)]) ∨
         ins = cleanedLines e ++ [([] : Str), "---".toList])) := by
  simp only [insertClassByTimeFixed]
  cases hfind : (sortByMin (collectEntries (splitNL content))).find?
      (fun p => decide (parseTimeToMinutes t < p.2)) with
  | none =>
    left
    simp only
    rw [splitNL_append]
    congr 1
    rw [show (e ++ ['\n'] : Str) = e ++ '\n' :: [] from rfl, splitNL_append]
    rfl
  | some p =>
    right
    simp only
    cases hgb : goBack ((splitNL content).take p.1).reverse (p.1 - 1) with
    | some i =>
      refine ⟨i, _, ?_, Or.inl rfl⟩
      simp only
      apply splitNL_joinNL
      · intro l hl
        rcases List.mem_append.mp hl with hl | hl
        · rcases List.mem_append.mp hl with hl | hl
          · exact noNL_of_mem_splitNL (List.mem_of_mem_take hl)
          · rcases List.mem_cons.mp hl with hl | hl
            · subst hl
              simp only [noNL]
              decide
            · rcases List.mem_cons.mp hl with hl | hl
              · subst hl; simp [noNL]
              · rcases List.mem_append.mp hl with hl | hl
                · exact noNL_cleanedLines hl
                · rw [List.mem_singleton] at hl
                  subst hl; simp [noNL]
        · exact noNL_of_mem_splitNL (List.mem_of_mem_drop hl)
      · simp
    | none =>
      refine ⟨p.1, _, ?_, Or.inr rfl⟩
      simp only
      apply splitNL_joinNL
      · intro l hl
        rcases List.mem_append.mp hl with hl | hl
        · rcases List.mem_append.mp hl with hl | hl
          · exact noNL_of_mem_splitNL (List.mem_of_mem_take hl)
          · rcases List.mem_append.mp hl with hl | hl
            · exact noNL_cleanedLines hl
            · rcases List.mem_cons.mp hl with hl | hl
              · subst hl; simp [noNL]
              · rw [List.mem_singleton] at hl
                subst hl
                simp only [noNL]
                decide
        · exact noNL_of_mem_splitNL (List.mem_of_mem_drop hl)
      · simp

/-- A merge never removes or edits an existing line of the document: the old
lines are a sublist of the new lines. -/
theorem insert_sublist (content e t n : Str) :
    (splitNL content).Sublist
      (splitNL (insertClassByTimeFixed content e t n).1) := by
  rcases insert_result_cases content e t n with h | ⟨a, ins, h, _⟩
  · rw [h]
    exact List.sublist_append_left _ _
  · rw [h]
    have h2 : List.Sublist
        ((splitNL content).take a ++ (splitNL content).drop a)
        ((splitNL content).take a ++ (ins ++ (splitNL content).drop a)) :=
      (List.sublist_append_right ins _).append_left _
    rw [← List.append_assoc, List.take_append_drop] at h2
    exact h2

/-- A line present both in the raw entry text and in its divider-cleaned form
is present in the merged document (the append branch splices the raw entry,
the insert branch the cleaned one). -/
theorem insert_mem_entry {content e t n l : Str} (hr : l ∈ splitNL e)
    (hc : l ∈ cleanedLines e) :
    l ∈ splitNL (insertClassByTimeFixed content e t n).1 := by
  rcases insert_result_cases content e t n with h | ⟨a, ins, h, hins⟩
  · rw [h]
    exact List.mem_append.mpr (Or.inr (List.mem_append.mpr (Or.inl hr)))
  · rw [h]
    refine List.mem_append.mpr (Or.inl (List.mem_append.mpr (Or.inr ?_)))
    rcases hins with hins | hins
    · rw [hins]
      exact List.mem_cons_of_mem _ (List.mem_cons_of_mem _
        (List.mem_append.mpr (Or.inl hc)))
    · rw [hins]
      exact List.mem_append.mpr (Or.inl hc)

/-- The conflict flag is exactly "some existing entry-block header normalizes
to the new entry's minutes"; the insertion itself never depends on it. -/
theorem insert_conflict (content e t n : Str) :
    (insertClassByTimeFixed content e t n).2
      = (collectEntries (splitNL content)).any
          (fun p => p.2 == parseTimeToMinutes t) := by
  simp only [insertClassByTimeFixed]
  cases hfind : (sortByMin (collectEntries (splitNL content))).find?
      (fun p => decide (parseTimeToMinutes t < p.2)) with
  | none => simp
  | some p =>
    cases hgb : goBack ((splitNL content).take p.1).reverse (p.1 - 1) <;> simp

theorem mem_collectFrom_of_mem_line {ls : List Str} {l t : Str} {i : Nat}
    (hl : l ∈ ls) (hmt : matchHeaderTime l = some t) :
    ∃ idx, (idx, parseTimeToMinutes t) ∈ collectFrom i ls := by
  induction ls generalizing i with
  | nil => simp at hl
  | cons x xs ih =>
    rcases List.mem_cons.mp hl with hl | hl
    · subst hl
      exact ⟨i, by rw [collectFrom, hmt]; exact List.mem_cons_self _ _⟩
    · obtain ⟨idx, hidx⟩ := ih hl (i := i + 1)
      refine ⟨idx, ?_⟩
      rw [collectFrom]
      cases matchHeaderTime x with
      | none => exact hidx
      | some t2 => exact List.mem_cons_of_mem _ hidx

theorem chain_insert_mid {A B : List Nat} {m v : Nat}
    (h : List.Chain' (· ≤ ·) (A ++ v :: B)) (hA : ∀ x ∈ A, x ≤ m) (hmv : m ≤ v) :
    List.Chain' (· ≤ ·) (A ++ m :: v :: B) := by
  rw [List.chain'_append] at h ⊢
  refine ⟨h.1, ?_, ?_⟩
  · rw [List.chain'_cons]
    exact ⟨hmv, h.2.1⟩
  · intro x hx y hy
    simp only [List.head?_cons, Option.mem_def, Option.some.injEq] at hy
    subst hy
    exact hA x (List.mem_of_mem_getLast? hx)

end LP

namespace LP

/-- Claim C5: for every time string matching `H:MM`/`HH:MM` with hour 0-23 and
minutes 00-59, `parseTimeToMinutes` returns `(hour+12)*60+minute` when the
parsed hour is 1-7 and `hour*60+minute` otherwise; concretely `"3:15" ↦ 915`,
`"9:00" ↦ 540`, `"0:30" ↦ 30`. -/
theorem c5_time_normalization :
    (∀ s h m, matchHMM s = some (h, m) → h ≤ 23 → m ≤ 59 →
      parseTimeToMinutes s =
        if 1 ≤ h ∧ h ≤ 7 then (h + 12) * 60 + m else h * 60 + m) ∧
    parseTimeToMinutes "3:15".toList = 915 ∧
    parseTimeToMinutes "9:00".toList = 540 ∧
    parseTimeToMinutes "0:30".toList = 30 := by
  refine ⟨?_, by decide, by decide, by decide⟩
  intro s h m hs hh hm
  simp only [parseTimeToMinutes, hs]
  rw [if_neg (by simp only [Bool.or_eq_true, decide_eq_true_eq, not_or, not_lt]; omega)]
  by_cases hc : 1 ≤ h ∧ h ≤ 7
  · rw [if_pos (by simp only [Bool.and_eq_true, decide_eq_true_eq]; exact hc), if_pos hc]
  · rw [if_neg (by simpa only [Bool.and_eq_true, decide_eq_true_eq] using hc), if_neg hc]

/-- Witness for C5: the general clause applied at the concrete inputs named by
the claim. -/
theorem c5_time_normalization_witness :
    parseTimeToMinutes "3:15".toList = 915 ∧ parseTimeToMinutes "9:00".toList = 540 := by
  have h1 := c5_time_normalization.1 "3:15".toList 3 15 (by decide) (by decide) (by decide)
  have h2 := c5_time_normalization.1 "9:00".toList 9 0 (by decide) (by decide) (by decide)
  constructor
  · rw [h1]; decide
  · rw [h2]; decide

/-- Claim C10: `parseTimeToMinutes` is total, always lands in 0..1439, and
returns exactly the sentinel 0 on every input outside the valid `H:MM`/`HH:MM`
0-23/00-59 domain. -/
theorem c10_time_safety :
    ∀ s, parseTimeToMinutes s ≤ 1439 ∧
      (validTimeB s = false → parseTimeToMinutes s = 0) := by
  intro s
  cases hm : matchHMM s with
  | none => exact ⟨by simp [parseTimeToMinutes, hm], fun _ => by simp [parseTimeToMinutes, hm]⟩
  | some p =>
    obtain ⟨h, m⟩ := p
    simp only [parseTimeToMinutes, validTimeB, hm]
    constructor
    · by_cases hr : (h > 23 || m > 59) = true
      · rw [if_pos hr]; omega
      · rw [if_neg hr]
        simp only [Bool.or_eq_true, decide_eq_true_eq, not_or, not_lt] at hr
        by_cases hc : (1 ≤ h && h ≤ 7) = true
        · rw [if_pos hc]
          simp only [Bool.and_eq_true, decide_eq_true_eq] at hc
          omega
        · rw [if_neg hc]
          omega
    · intro hfalse
      by_cases hr : (h > 23 || m > 59) = true
      · rw [if_pos hr]
      · exfalso
        simp only [Bool.or_eq_true, decide_eq_true_eq, not_or, not_lt] at hr
        have hf2 : ¬((decide (h ≤ 23) && decide (m ≤ 59)) = true) := by
          simp [hfalse]
        simp only [Bool.and_eq_true, decide_eq_true_eq] at hf2
        exact hf2 ⟨hr.1, hr.2⟩

/-- Claim C1 as stated is false: this document's entry-block headers
(9:00 → 540, 11:00 → 660) are in non-decreasing normalized order, and the
inserted text is a single well-formed entry for 10:00 (normalized 600, both
in raw form and after divider cleaning), yet `insertClassByTimeFixed` places
the new block above the existing delimiter — and hence above the 9:00
header — producing header order 600, 540, 660.  (The backward divider scan
skips over entry-header lines, so with no intervening body line it escapes
past the previous header.) -/
theorem c1_counterexample :
    List.Chain' (· ≤ ·) (headerMins ("---\n## 9:00 - A\n## 11:00 - B".toList)) ∧
    hdrMinsL (splitNL ("## 10:00 - C".toList)) =
      [parseTimeToMinutes ("10:00".toList)] ∧
    hdrMinsL (cleanedLines ("## 10:00 - C".toList)) =
      [parseTimeToMinutes ("10:00".toList)] ∧
    ¬ List.Chain' (· ≤ ·) (headerMins
      (insertClassByTimeFixed ("---\n## 9:00 - A\n## 11:00 - B".toList)
        ("## 10:00 - C".toList) ("10:00".toList) ("C".toList)).1) := by
  have h1 : headerMins ("---\n## 9:00 - A\n## 11:00 - B".toList) = [540, 660] := by
    decide
  have h2 : headerMins
      (insertClassByTimeFixed ("---\n## 9:00 - A\n## 11:00 - B".toList)
        ("## 10:00 - C".toList) ("10:00".toList) ("C".toList)).1
      = [600, 540, 660] := by decide
  refine ⟨?_, by decide, by decide, ?_⟩
  · rw [h1]
    simp [List.chain'_cons]
  · rw [h2]
    intro hc
    rw [List.chain'_cons] at hc
    omega

/-- Claim C1, amended: the ordering invariant holds provided that, in
addition to the headers being in non-decreasing normalized order, any two
consecutive entry-block headers have at least one separating line that is
neither blank nor an entry-block header (`GapOK`) — documents produced by
this engine always do, since every block carries body text and a delimiter.
The inserted text is one entry block: a single header normalizing to the
new time, both raw and after divider cleaning. -/
theorem c1_ordering_amended (content e newTime name : Str)
    (hord : List.Chain' (· ≤ ·) (headerMins content))
    (hgap : GapOK (splitNL content))
    (he1 : hdrMinsL (splitNL e) = [parseTimeToMinutes newTime])
    (he2 : hdrMinsL (cleanedLines e) = [parseTimeToMinutes newTime]) :
    List.Chain' (· ≤ ·)
      (headerMins (insertClassByTimeFixed content e newTime name).1) := by
  have hordL : List.Chain' (· ≤ ·) (hdrMinsL (splitNL content)) := hord
  have hsnd := collectFrom_map_snd 0 (splitNL content)
  have hchainE : List.Chain' (fun a b : Nat × Nat => a.2 ≤ b.2)
      (collectFrom 0 (splitNL content)) := by
    have h2 := hordL
    rw [← hsnd] at h2
    exact (List.chain'_map Prod.snd).mp h2
  have hsorted : sortByMin (collectEntries (splitNL content))
      = collectEntries (splitNL content) := sortByMin_eq_self hchainE
  simp only [insertClassByTimeFixed, collectEntries] at hsorted ⊢
  rw [hsorted]
  cases hfind : (collectFrom 0 (splitNL content)).find?
      (fun p => decide (parseTimeToMinutes newTime < p.2)) with
  | none =>
    simp only
    have hsplit : splitNL (content ++ '\n' :: (e ++ ['\n'])) =
        splitNL content ++ (splitNL e ++ [[]]) := by
      rw [splitNL_append]
      congr 1
      rw [show (e ++ ['\n'] : Str) = e ++ '\n' :: [] from rfl, splitNL_append]
      rfl
    unfold headerMins
    rw [hsplit, hdrMinsL_append, hdrMinsL_append, he1,
      show hdrMinsL [[]] = ([] : List Nat) from rfl, List.append_nil]
    rw [List.chain'_append]
    refine ⟨hordL, by simp, ?_⟩
    intro x hx y hy
    simp only [List.head?_cons, Option.mem_def, Option.some.injEq] at hy
    subst hy
    have hxmem : x ∈ hdrMinsL (splitNL content) := List.mem_of_mem_getLast? hx
    rw [← hsnd] at hxmem
    obtain ⟨q, hq, hqx⟩ := List.mem_map.mp hxmem
    have hnq := List.find?_eq_none.mp hfind q hq
    simp only [decide_eq_true_eq] at hnq
    omega
  | some p =>
    simp only
    have hmp : parseTimeToMinutes newTime < p.2 := by
      have := List.find?_some hfind
      simpa using this
    obtain ⟨E1, E2, hEsplit, hE1⟩ := findSplit hfind
    have hpmem : p ∈ collectFrom 0 (splitNL content) := by
      rw [hEsplit]
      simp
    have hjlt : p.1 < (splitNL content).length := by
      have := collectFrom_idx hpmem
      omega
    have hdropj : (splitNL content).drop p.1
        = (splitNL content).get ⟨p.1, hjlt⟩ :: (splitNL content).drop (p.1 + 1) :=
      List.drop_eq_get_cons hjlt
    have hdecomp : splitNL content = (splitNL content).take p.1 ++
        (splitNL content).get ⟨p.1, hjlt⟩ :: (splitNL content).drop (p.1 + 1) := by
      conv_lhs => rw [← List.take_append_drop p.1 (splitNL content)]
      rw [hdropj]
    have hA0len : ((splitNL content).take p.1).length = p.1 := by
      rw [List.length_take]
      omega
    have hcsplit : collectFrom 0 (splitNL content)
        = collectFrom 0 ((splitNL content).take p.1) ++
          collectFrom p.1 ((splitNL content).get ⟨p.1, hjlt⟩ ::
            (splitNL content).drop (p.1 + 1)) := by
      conv_lhs => rw [hdecomp]
      rw [collectFrom_append, hA0len]
      simp
    have hA0idx : ∀ q ∈ collectFrom 0 ((splitNL content).take p.1), q.1 < p.1 := by
      intro q hq
      have := collectFrom_idx hq
      rw [hA0len] at this
      omega
    cases hmt : matchHeaderTime ((splitNL content).get ⟨p.1, hjlt⟩) with
    | none =>
      exfalso
      rw [hcsplit, collectFrom, hmt] at hpmem
      rcases List.mem_append.mp hpmem with hc | hc
      · exact absurd (hA0idx p hc) (lt_irrefl p.1)
      · have := collectFrom_idx hc
        omega
    | some t =>
      have hpt : p = (p.1, parseTimeToMinutes t) := by
        rw [hcsplit, collectFrom, hmt] at hpmem
        rcases List.mem_append.mp hpmem with hc | hc
        · exact absurd (hA0idx p hc) (lt_irrefl p.1)
        · rcases List.mem_cons.mp hc with hc | hc
          · exact hc
          · have := collectFrom_idx hc
            omega
      have hpv : p.2 = parseTimeToMinutes t := by rw [hpt]
      have hE1eq : E1 = collectFrom 0 ((splitNL content).take p.1) := by
        have heq2 : E1 ++ p :: E2 = collectFrom 0 ((splitNL content).take p.1) ++
            p :: collectFrom (p.1 + 1) ((splitNL content).drop (p.1 + 1)) := by
          rw [← hEsplit, hcsplit, collectFrom, hmt]
          dsimp only
          rw [← hpt]
        have hpE1 : p ∉ E1 := by
          intro hmem
          have := hE1 p hmem
          simp only [decide_eq_false_iff_not] at this
          exact this hmp
        have hpA0 : p ∉ collectFrom 0 ((splitNL content).take p.1) := by
          intro hmem
          exact absurd (hA0idx p hmem) (lt_irrefl p.1)
        exact (firstOccSplit heq2 hpE1 hpA0).1
      have hA0le : ∀ x ∈ hdrMinsL ((splitNL content).take p.1),
          x ≤ parseTimeToMinutes newTime := by
        intro x hx
        rw [← collectFrom_map_snd 0] at hx
        obtain ⟨q, hq, hqx⟩ := List.mem_map.mp hx
        rw [← hE1eq] at hq
        have := hE1 q hq
        simp only [decide_eq_false_iff_not] at this
        omega
      have hordDecomp : List.Chain' (· ≤ ·)
          (hdrMinsL ((splitNL content).take p.1) ++ parseTimeToMinutes t ::
            hdrMinsL ((splitNL content).drop (p.1 + 1))) := by
        have h2 := hordL
        conv at h2 => rw [hdecomp]
        rw [hdrMinsL_append, hdrMinsL_cons_some hmt] at h2
        exact h2
      -- both goBack outcomes lead to the same header-list shape
      cases hgb : goBack ((splitNL content).take p.1).reverse (p.1 - 1) with
      | none =>
        simp only
        have hlinesOK : ∀ l ∈ (splitNL content).take p.1 ++
            (cleanedLines e ++ [([] : Str), "---".toList]) ++
            (splitNL content).drop p.1, noNL l := by
          intro l hl
          rcases List.mem_append.mp hl with hl | hl
          · rcases List.mem_append.mp hl with hl | hl
            · exact noNL_of_mem_splitNL (List.mem_of_mem_take hl)
            · rcases List.mem_append.mp hl with hl | hl
              · exact noNL_of_mem_splitNL hl
              · rcases List.mem_cons.mp hl with hl | hl
                · subst hl; simp [noNL]
                · rw [List.mem_singleton] at hl
                  subst hl
                  simp only [noNL]
                  decide
          · exact noNL_of_mem_splitNL (List.mem_of_mem_drop hl)
        rw [headerMins, splitNL_joinNL _ hlinesOK (by simp)]
        simp only [hdrMinsL_append]
        rw [he2, hdropj, hdrMinsL_cons_some hmt,
          show hdrMinsL [([] : Str), "---".toList] = [] from by decide]
        have := chain_insert_mid hordDecomp hA0le (le_of_lt (hpv ▸ hmp))
        simpa using this
      | some i =>
        simp only
        have hgb2 : goBack ((splitNL content).take p.1).reverse
            (((splitNL content).take p.1).length - 1) = some i := by
          rw [hA0len]
          exact hgb
        obtain ⟨A1, d, B1, hA0eq, hA1len, hdiv, hB1⟩ := goBack_some hgb2
        have hB1nohdr : ∀ l ∈ B1, isHeader l = false := by
          by_contra hex
          push_neg at hex
          obtain ⟨l0, hl0, hl0h⟩ := hex
          have hexh : ∃ l ∈ B1, isHeader l = true :=
            ⟨l0, hl0, by simpa using hl0h⟩
          obtain ⟨C1, hh, C2, hBeq, hhh, hC2⟩ := lastHeaderSplit hexh
          have hlineseq : splitNL content = (A1 ++ d :: C1) ++ hh ::
              (C2 ++ ((splitNL content).get ⟨p.1, hjlt⟩ ::
                (splitNL content).drop (p.1 + 1))) := by
            conv_lhs => rw [hdecomp]
            rw [hA0eq, hBeq]
            simp
          obtain ⟨l', hl', hstop, hnh⟩ := hgap _ _ _ _ _ hlineseq hhh
            (by rw [isHeader, hmt]; rfl) hC2
          have hl'B1 : l' ∈ B1 := by
            rw [hBeq]
            exact List.mem_append.mpr (Or.inr (List.mem_cons_of_mem hh hl'))
          rcases (hB1 l' hl'B1).2 with hb | hb
          · exact hstop hb
          · rw [isHeader] at hnh
            rw [hb] at hnh
            simp at hnh
        have htake_i : (splitNL content).take i = A1 := by
          have : splitNL content = A1 ++ (d :: B1 ++
              ((splitNL content).get ⟨p.1, hjlt⟩ ::
                (splitNL content).drop (p.1 + 1))) := by
            conv_lhs => rw [hdecomp]
            rw [hA0eq]
            simp
          rw [this, ← hA1len, List.take_left]
        have hdrop_i : (splitNL content).drop i = d :: B1 ++
            ((splitNL content).get ⟨p.1, hjlt⟩ ::
              (splitNL content).drop (p.1 + 1)) := by
          have : splitNL content = A1 ++ (d :: B1 ++
              ((splitNL content).get ⟨p.1, hjlt⟩ ::
                (splitNL content).drop (p.1 + 1))) := by
            conv_lhs => rw [hdecomp]
            rw [hA0eq]
            simp
          conv_lhs => rw [this, ← hA1len]
          rw [List.drop_left]
        have hlinesOK : ∀ l ∈ (splitNL content).take i ++
            ("---".toList :: ([] : Str) :: (cleanedLines e ++ [([] : Str)])) ++
            (splitNL content).drop i, noNL l := by
          intro l hl
          rcases List.mem_append.mp hl with hl | hl
          · rcases List.mem_append.mp hl with hl | hl
            · exact noNL_of_mem_splitNL (List.mem_of_mem_take hl)
            · rcases List.mem_cons.mp hl with hl | hl
              · subst hl
                simp only [noNL]
                decide
              · rcases List.mem_cons.mp hl with hl | hl
                · subst hl; simp [noNL]
                · rcases List.mem_append.mp hl with hl | hl
                  · exact noNL_of_mem_splitNL hl
                  · rw [List.mem_singleton] at hl
                    subst hl
                    simp [noNL]
          · exact noNL_of_mem_splitNL (List.mem_of_mem_drop hl)
        have hdnone : matchHeaderTime d = none := by
          have hnh := isHeader_false_of_isDivider hdiv
          rw [isHeader] at hnh
          cases hd2 : matchHeaderTime d with
          | none => rfl
          | some t2 => rw [hd2] at hnh; simp at hnh
        rw [headerMins, splitNL_joinNL _ hlinesOK (by simp), hdrop_i, htake_i]
        simp only [hdrMinsL_append]
        have hdrA1 : hdrMinsL A1 = hdrMinsL ((splitNL content).take p.1) := by
          rw [hA0eq]
          simp only [hdrMinsL_append]
          rw [hdrMinsL_cons_none hdnone, hdrMinsL_nil_of_no_headers hB1nohdr,
            List.append_nil]
        have hdrIns : hdrMinsL ("---".toList :: ([] : Str) ::
            (cleanedLines e ++ [([] : Str)])) = [parseTimeToMinutes newTime] := by
          rw [hdrMinsL_cons_none (by decide), hdrMinsL_cons_none (by rfl),
            hdrMinsL_append, he2]
          rfl
        have hdrDB1 : hdrMinsL (d :: B1) = [] := by
          rw [hdrMinsL_cons_none hdnone, hdrMinsL_nil_of_no_headers hB1nohdr]
        have hdrGet : hdrMinsL ((splitNL content).get ⟨p.1, hjlt⟩ ::
            (splitNL content).drop (p.1 + 1))
            = parseTimeToMinutes t ::
              hdrMinsL ((splitNL content).drop (p.1 + 1)) :=
          hdrMinsL_cons_some hmt _
        rw [hdrA1]
        simp only [hdrIns, hdrDB1, hdrGet]
        have := chain_insert_mid hordDecomp hA0le (le_of_lt (hpv ▸ hmp))
        simpa using this

/-- Witness for the amended C1: a concrete ordered daily-plan document (one
existing 9:00 block with body text and delimiter) merged with a 10:00 entry
stays in non-decreasing header order. -/
theorem c1_ordering_amended_witness :
    List.Chain' (· ≤ ·) (headerMins (insertClassByTimeFixed
      ("# Plan\n\n## 9:00 - A\n\nbody\n\n---\n".toList)
      ("## 10:00 - B".toList) ("10:00".toList) ("B".toList)).1) := by
  apply c1_ordering_amended
  · rw [show headerMins ("# Plan\n\n## 9:00 - A\n\nbody\n\n---\n".toList) = [540] from by
      decide]
    simp
  · intro A h M h' B heq hh hh' _
    exfalso
    have h1 : hdrMinsL (splitNL ("# Plan\n\n## 9:00 - A\n\nbody\n\n---\n".toList))
        = hdrMinsL (A ++ h :: (M ++ h' :: B)) := by rw [heq]
    rw [show hdrMinsL (splitNL ("# Plan\n\n## 9:00 - A\n\nbody\n\n---\n".toList))
        = [540] from by decide] at h1
    rw [isHeader, Option.isSome_iff_exists] at hh hh'
    obtain ⟨th, hth⟩ := hh
    obtain ⟨th', hth'⟩ := hh'
    rw [hdrMinsL_append, hdrMinsL_cons_some hth, hdrMinsL_append,
      hdrMinsL_cons_some hth'] at h1
    have := congrArg List.length h1
    simp [List.length_append] at this
    omega
  · decide
  · decide

/-- Claim C3: two merges of distinct class names whose effective times
normalize to the same minute-of-day both succeed — each entry's header line
is present in the final text — the second merge reports `conflict = true`,
and no existing line is removed or altered (the original document's lines
survive as a sublist).  Each entry is assumed to carry one header line
normalizing to its effective time, both raw and after divider cleaning. -/
theorem c3_conflict_surfaced (content e1 e2 t1 t2 n1 n2 hl1 hl2 : Str)
    (_hnames : n1 ≠ n2)
    (hts : parseTimeToMinutes t1 = parseTimeToMinutes t2)
    (hh1r : hl1 ∈ splitNL e1) (hh1c : hl1 ∈ cleanedLines e1)
    (hm1 : ∃ u, matchHeaderTime hl1 = some u ∧
      parseTimeToMinutes u = parseTimeToMinutes t1)
    (hh2r : hl2 ∈ splitNL e2) (hh2c : hl2 ∈ cleanedLines e2)
    (_hm2 : ∃ u, matchHeaderTime hl2 = some u ∧
      parseTimeToMinutes u = parseTimeToMinutes t2) :
    (insertClassByTimeFixed
        (insertClassByTimeFixed content e1 t1 n1).1 e2 t2 n2).2 = true ∧
    (splitNL content).Sublist (splitNL (insertClassByTimeFixed
        (insertClassByTimeFixed content e1 t1 n1).1 e2 t2 n2).1) ∧
    hl1 ∈ splitNL (insertClassByTimeFixed
        (insertClassByTimeFixed content e1 t1 n1).1 e2 t2 n2).1 ∧
    hl2 ∈ splitNL (insertClassByTimeFixed
        (insertClassByTimeFixed content e1 t1 n1).1 e2 t2 n2).1 := by
  obtain ⟨u1, hu1, hu1v⟩ := hm1
  have hmem1 : hl1 ∈ splitNL (insertClassByTimeFixed content e1 t1 n1).1 :=
    insert_mem_entry hh1r hh1c
  refine ⟨?_, ?_, ?_, ?_⟩
  · rw [insert_conflict]
    obtain ⟨idx, hidx⟩ := mem_collectFrom_of_mem_line hmem1 hu1 (i := 0)
    refine List.any_eq_true.mpr ⟨(idx, parseTimeToMinutes u1), hidx, ?_⟩
    rw [beq_iff_eq]
    rw [hu1v, hts]
  · exact (insert_sublist content e1 t1 n1).trans
      (insert_sublist (insertClassByTimeFixed content e1 t1 n1).1 e2 t2 n2)
  · exact (insert_sublist
      (insertClassByTimeFixed content e1 t1 n1).1 e2 t2 n2).subset hmem1
  · exact insert_mem_entry hh2r hh2c

/-- Witness for C3: merging `## 1:00 - A` (normalized 780) and then
`## 13:00 - B` (also 780) into a plain document flags the conflict while
keeping every line. -/
theorem c3_conflict_surfaced_witness :
    (insertClassByTimeFixed
        (insertClassByTimeFixed ("some document".toList)
          ("## 1:00 - A".toList) ("1:00".toList) ("A".toList)).1
        ("## 13:00 - B".toList) ("13:00".toList) ("B".toList)).2 = true :=
  (c3_conflict_surfaced ("some document".toList)
    ("## 1:00 - A".toList) ("## 13:00 - B".toList)
    ("1:00".toList) ("13:00".toList) ("A".toList) ("B".toList)
    ("## 1:00 - A".toList) ("## 13:00 - B".toList)
    (by decide) (by decide) (by decide) (by decide)
    ⟨"1:00".toList, by decide, by decide⟩
    (by decide) (by decide)
    ⟨"13:00".toList, by decide, by decide⟩).1

/-- Claim C7: classification returns early_dismissal on membership in the
early-dismissal set, else testing_day on membership in the testing-day set,
else regular; a date in both sets classifies as early_dismissal,
independently of how the sets were ordered when loaded. -/
theorem c7_classification_precedence (date : Str) (ss : SpecialSchedules) :
    (date ∈ ss.early_dismissal →
      getScheduleTypeForDate date ss = SchedType.early_dismissal) ∧
    (date ∉ ss.early_dismissal → date ∈ ss.testing_day →
      getScheduleTypeForDate date ss = SchedType.testing_day) ∧
    (date ∉ ss.early_dismissal → date ∉ ss.testing_day →
      getScheduleTypeForDate date ss = SchedType.regular) ∧
    (date ∈ ss.early_dismissal → date ∈ ss.testing_day →
      getScheduleTypeForDate date ss = SchedType.early_dismissal) := by
  unfold getScheduleTypeForDate
  refine ⟨fun h1 => ?_, fun h1 h2 => ?_, fun h1 h2 => ?_, fun h1 _ => ?_⟩
  · rw [if_pos (by simpa using h1)]
  · rw [if_neg (by simpa using h1), if_pos (by simpa using h2)]
  · rw [if_neg (by simpa using h1), if_neg (by simpa using h2)]
  · rw [if_pos (by simpa using h1)]

/-- Witness for C7: a date present in both special-schedule sets classifies
as early dismissal. -/
theorem c7_classification_precedence_witness :
    getScheduleTypeForDate ("2025-01-06".toList)
      ⟨[("2025-01-06".toList)], [("2025-01-06".toList)]⟩
      = SchedType.early_dismissal :=
  (c7_classification_precedence ("2025-01-06".toList)
    ⟨[("2025-01-06".toList)], [("2025-01-06".toList)]⟩).2.2.2
    (by decide) (by decide)

/-- Claim C6: effective-time resolution.  For `getTimeForScheduleType` (the
ScheduleService switch): under early_dismissal it returns the early-dismissal
time with an informational note and needsReview = false exactly when that
time is present (non-empty) and not the `TBD` placeholder, and otherwise the
regular time with a review note and needsReview = true; under testing_day it
returns the testing-day time with an informational note and
needsReview = false only when that time is present and differs from the
regular time, and otherwise falls back likewise; under regular it returns
the regular time with an empty note and needsReview = false.  The inline
resolver of `createDailyPlanEntry` behaves the same with "present"
additionally requiring a non-blank string for the early-dismissal time. -/
theorem c6_effective_time (regularTime : Str) (edt tdt : Option Str) :
    (∀ t, edt = some t → t ≠ [] → t ≠ "TBD".toList →
      getTimeForScheduleType regularTime edt tdt SchedType.early_dismissal
        = ⟨t, " (Early Dismissal)".toList, false⟩) ∧
    ((edt = none ∨ edt = some [] ∨ edt = some ("TBD".toList)) →
      getTimeForScheduleType regularTime edt tdt SchedType.early_dismissal
        = ⟨regularTime, " (⚠️ Early Dismissal - check time manually)".toList, true⟩) ∧
    (∀ t, tdt = some t → t ≠ [] → t ≠ regularTime →
      getTimeForScheduleType regularTime edt tdt SchedType.testing_day
        = ⟨t, " (Testing Day)".toList, false⟩) ∧
    ((tdt = none ∨ tdt = some [] ∨ tdt = some regularTime) →
      getTimeForScheduleType regularTime edt tdt SchedType.testing_day
        = ⟨regularTime,
            " (⚠️ Testing Day - update testing_day_time when known)".toList, true⟩) ∧
    getTimeForScheduleType regularTime edt tdt SchedType.regular
      = ⟨regularTime, [], false⟩ ∧
    (∀ t, edt = some t → trimStr t ≠ [] → t ≠ "TBD".toList →
      resolveTimeInline regularTime edt tdt SchedType.early_dismissal
        = ⟨t, " (Early Dismissal)".toList, false⟩) ∧
    ((edt = none ∨ (∃ t, edt = some t ∧ (trimStr t = [] ∨ t = "TBD".toList))) →
      resolveTimeInline regularTime edt tdt SchedType.early_dismissal
        = ⟨regularTime,
            " (⚠️ Early Dismissal - using regular time, adjust manually)".toList, true⟩) ∧
    (∀ t, tdt = some t → t ≠ [] → t ≠ regularTime →
      resolveTimeInline regularTime edt tdt SchedType.testing_day
        = ⟨t, " (Testing Day)".toList, false⟩) ∧
    ((tdt = none ∨ tdt = some [] ∨ tdt = some regularTime) →
      resolveTimeInline regularTime edt tdt SchedType.testing_day
        = ⟨regularTime,
            " (⚠️ Testing Day - using regular time, update testing_day_time when known)".toList,
            true⟩) ∧
    resolveTimeInline regularTime edt tdt SchedType.regular
      = ⟨regularTime, [], false⟩ := by
  refine ⟨?_, ?_, ?_, ?_, rfl, ?_, ?_, ?_, ?_, rfl⟩
  · intro t ht h1 h2
    subst ht
    unfold getTimeForScheduleType
    dsimp only
    rw [if_pos (by simp [h1, show t ≠ ['T', 'B', 'D'] from by simpa using h2])]
  · intro h
    rcases h with h | h | h <;> subst h <;> simp [getTimeForScheduleType]
  · intro t ht h1 h2
    subst ht
    unfold getTimeForScheduleType
    dsimp only
    rw [if_pos (by simp [h1, h2])]
  · intro h
    rcases h with h | h | h <;> subst h <;> simp [getTimeForScheduleType]
  · intro t ht h1 h2
    subst ht
    unfold resolveTimeInline
    dsimp only
    have ht0 : t ≠ [] := fun hc => h1 (by rw [hc]; rfl)
    rw [if_pos (by simp [ht0, h1, show t ≠ ['T', 'B', 'D'] from by simpa using h2])]
  · intro h
    rcases h with h | ⟨t, ht, hcond⟩
    · subst h; simp [resolveTimeInline]
    · subst ht
      unfold resolveTimeInline
      dsimp only
      have hfalse : (decide (t ≠ []) && decide (trimStr t ≠ []) &&
          decide (t ≠ "TBD".toList)) = false := by
        rcases hcond with hc | hc <;> simp [hc]
      rw [if_neg (by rw [hfalse]; simp)]
  · intro t ht h1 h2
    subst ht
    unfold resolveTimeInline
    dsimp only
    rw [if_pos (by simp [h1, h2])]
  · intro h
    rcases h with h | h | h <;> subst h <;> simp [resolveTimeInline]

/-- Witness for C6: a configured 1:30 early-dismissal time is used as-is with
an informational note, while a testing-day time equal to the regular time
falls back with a review flag. -/
theorem c6_effective_time_witness :
    getTimeForScheduleType ("9:00".toList) (some ("1:30".toList))
        (some ("9:00".toList)) SchedType.early_dismissal
      = ⟨"1:30".toList, " (Early Dismissal)".toList, false⟩ ∧
    getTimeForScheduleType ("9:00".toList) (some ("1:30".toList))
        (some ("9:00".toList)) SchedType.testing_day
      = ⟨"9:00".toList,
          " (⚠️ Testing Day - update testing_day_time when known)".toList, true⟩ :=
  ⟨(c6_effective_time ("9:00".toList) (some ("1:30".toList))
      (some ("9:00".toList))).1 ("1:30".toList) rfl (by decide) (by decide),
   (c6_effective_time ("9:00".toList) (some ("1:30".toList))
      (some ("9:00".toList))).2.2.2.1 (Or.inr (Or.inr rfl))⟩

/-- Witness for C10: a malformed string and an out-of-range one both hit the
sentinel, and a valid one stays within range. -/
theorem c10_time_safety_witness :
    parseTimeToMinutes "not a time".toList = 0 ∧
    parseTimeToMinutes "99:99".toList = 0 ∧
    parseTimeToMinutes "23:59".toList ≤ 1439 := by
  refine ⟨(c10_time_safety "not a time".toList).2 (by decide),
          (c10_time_safety "99:99".toList).2 (by decide),
          (c10_time_safety "23:59".toList).1⟩

/-- Unfolding lemma: no blocks, no lines. -/
theorem flatSegs_nil : flatSegs [] = [] := rfl

/-- Unfolding lemma: the lines of a cons of blocks. -/
theorem flatSegs_cons (s : Seg) (segs : List Seg) :
    flatSegs (s :: segs) = segLines s ++ flatSegs segs := by
  simp [flatSegs]

/-- Unfolding lemma: the lines of appended block lists. -/
theorem flatSegs_append (a b : List Seg) :
    flatSegs (a ++ b) = flatSegs a ++ flatSegs b := by
  simp [flatSegs]

/-- A blank line is not a delimiter. -/
theorem isDivider_false_of_blank {l : Str} (h : trimStr l = []) :
    isDivider l = false := by
  rw [isDivider, h]
  rfl

/-- A blank line is not an entry header. -/
theorem isHeader_false_of_blank {l : Str} (h : trimStr l = []) :
    isHeader l = false := by
  cases hmt : matchHeaderTime l with
  | none => rw [isHeader, hmt]; rfl
  | some t =>
    obtain ⟨rest, rfl⟩ := matchHeaderTime_shape hmt
    rw [trimStr_cons_head _ (by decide)] at h
    simp at h

/-- The backward scan skips a run of blank lines, decrementing its index. -/
theorem goBack_blanks {bl : List Str} (hb : ∀ l ∈ bl, trimStr l = []) :
    ∀ (rest : List Str) (i : Nat),
      goBack (bl ++ rest) i = goBack rest (i - bl.length) := by
  induction bl with
  | nil => intro rest i; simp
  | cons x xs ih =>
    intro rest i
    have hx : trimStr x = [] := hb x (List.mem_cons_self x xs)
    rw [List.cons_append, goBack,
      if_neg (by simp [isDivider_false_of_blank hx]),
      if_neg (by simp [hx]),
      ih (fun l hl => hb l (List.mem_cons_of_mem x hl)) rest (i - 1),
      show i - 1 - xs.length = i - (x :: xs).length from by
        simp only [List.length_cons]; omega]

/-- The backward scan stops successfully at a delimiter line. -/
theorem goBack_divider {d : Str} (hd : isDivider d = true) (rest : List Str)
    (i : Nat) : goBack (d :: rest) i = some i := by
  rw [goBack, if_pos hd]

/-- The backward scan gives up at a non-blank line that is neither a
delimiter nor an entry header. -/
theorem goBack_stop {g : Str} (hd : isDivider g = false) (ht : trimStr g ≠ [])
    (hh : isHeader g = false) (rest : List Str) (i : Nat) :
    goBack (g :: rest) i = none := by
  rw [goBack, if_neg (by simp [hd]), if_pos]
  rw [Bool.and_eq_true, decide_eq_true_eq]
  refine ⟨ht, ?_⟩
  cases hmt : matchHeaderTime g with
  | none => rfl
  | some t => rw [isHeader, hmt] at hh; simp at hh

/-- An entry recorded by the header scan sits at its recorded line index,
and that line is a header. -/
theorem collectFrom_split :
    ∀ {ls : List Str} {i : Nat} {q : Nat × Nat}, q ∈ collectFrom i ls →
      ∃ A h B, ls = A ++ h :: B ∧ i + A.length = q.1 ∧ isHeader h = true := by
  intro ls
  induction ls with
  | nil => intro i q h; simp [collectFrom] at h
  | cons l ls ih =>
    intro i q h
    rw [collectFrom] at h
    cases hm : matchHeaderTime l with
    | none =>
      rw [hm] at h
      obtain ⟨A, hd, B, heq, hlen, hhd⟩ := ih h
      exact ⟨l :: A, hd, B, by rw [heq]; rfl, by simp only [List.length_cons]; omega,
        hhd⟩
    | some t =>
      rw [hm] at h
      rcases List.mem_cons.mp h with h | h
      · subst h
        exact ⟨[], l, ls, rfl, by simp, by rw [isHeader, hm]; rfl⟩
      · obtain ⟨A, hd, B, heq, hlen, hhd⟩ := ih h
        exact ⟨l :: A, hd, B, by rw [heq]; rfl,
          by simp only [List.length_cons]; omega, hhd⟩

/-- Every line of a well-formed block other than its head is a non-header. -/
theorem segTail_no_header {s : Seg} (hs : SegOK s) {l : Str}
    (hl : l ∈ s.body ++ "---".toList :: s.pad) : isHeader l = false := by
  rcases List.mem_append.mp hl with hl | hl
  · exact (hs.2.1 l hl).2
  · rcases List.mem_cons.mp hl with hl | hl
    · subst hl
      exact isHeader_false_of_isDivider (by decide)
    · exact isHeader_false_of_blank (hs.2.2.2 l hl)

/-- Locating a header line inside the lines of a block run: it is the head
of one of the blocks, with everything before it the earlier blocks and
everything after it the rest of its own block followed by the later
blocks. -/
theorem flat_header_split :
    ∀ {segs : List Seg}, (∀ s ∈ segs, SegOK s) →
      ∀ {a : List Str} {h : Str} {M : List Str},
        flatSegs segs = a ++ h :: M → isHeader h = true →
        ∃ segs1 s segs2, segs = segs1 ++ s :: segs2 ∧ h = s.hdr ∧
          a = flatSegs segs1 ∧
          M = (s.body ++ "---".toList :: s.pad) ++ flatSegs segs2 := by
  intro segs
  induction segs with
  | nil =>
    intro _ a h M heq _
    rw [flatSegs_nil] at heq
    exact absurd heq.symm (by simp)
  | cons s rest ih =>
    intro hOK a h M heq hh
    have hrest : ∀ x ∈ rest, SegOK x := fun x hx => hOK x (List.mem_cons_of_mem s hx)
    rw [flatSegs_cons] at heq
    rcases List.append_eq_append_iff.mp heq with ⟨a2, ha1, ha2⟩ | ⟨c2, hc1, hc2⟩
    · obtain ⟨segs1, s2, segs2, hseg, hhdr, haeq, hMeq⟩ := ih hrest ha2 hh
      refine ⟨s :: segs1, s2, segs2, by rw [hseg]; rfl, hhdr, ?_, hMeq⟩
      rw [ha1, haeq, flatSegs_cons]
    · cases c2 with
      | nil =>
        rw [List.append_nil] at hc1
        rw [List.nil_append] at hc2
        obtain ⟨segs1, s2, segs2, hseg, hhdr, haeq, hMeq⟩ :=
          ih hrest (show flatSegs rest = [] ++ h :: M from by simpa using hc2.symm) hh
        refine ⟨s :: segs1, s2, segs2, by rw [hseg]; rfl, hhdr, ?_, hMeq⟩
        rw [← hc1, flatSegs_cons, ← haeq]
        simp
      | cons x c3 =>
        rw [List.cons_append] at hc2
        injection hc2 with hx hM2
        subst hx
        cases a with
        | nil =>
          rw [List.nil_append, segLines, List.cons_append] at hc1
          injection hc1 with hh1 hh2
          refine ⟨[], s, rest, rfl, hh1.symm, by rw [flatSegs_nil], ?_⟩
          rw [hM2, ← hh2]
        | cons y a3 =>
          exfalso
          rw [List.cons_append, segLines, List.cons_append] at hc1
          injection hc1 with hy htl
          have hmem : h ∈ s.body ++ "---".toList :: s.pad := by
            rw [htl]
            exact List.mem_append.mpr (Or.inr (List.mem_cons_self _ _))
          have hfalse := segTail_no_header (hOK s (List.mem_cons_self s rest)) hmem
          rw [hfalse] at hh
          exact absurd hh (by simp)

/-- Locating a header line in a whole document under the layout invariant:
headers occur only as block heads. -/
theorem doc_header_split {P : List Str} {segs : List Seg}
    (hP : ∀ l ∈ P, isHeader l = false) (hs : ∀ s ∈ segs, SegOK s)
    {A : List Str} {h : Str} {M : List Str}
    (heq : P ++ flatSegs segs = A ++ h :: M) (hh : isHeader h = true) :
    ∃ segs1 s segs2, segs = segs1 ++ s :: segs2 ∧ h = s.hdr ∧
      A = P ++ flatSegs segs1 ∧
      M = (s.body ++ "---".toList :: s.pad) ++ flatSegs segs2 := by
  rcases List.append_eq_append_iff.mp heq with ⟨a2, ha1, ha2⟩ | ⟨c2, hc1, hc2⟩
  · obtain ⟨segs1, s, segs2, hseg, hhdr, haeq, hMeq⟩ := flat_header_split hs ha2 hh
    exact ⟨segs1, s, segs2, hseg, hhdr, by rw [ha1, haeq], hMeq⟩
  · cases c2 with
    | nil =>
      rw [List.append_nil] at hc1
      rw [List.nil_append] at hc2
      obtain ⟨segs1, s, segs2, hseg, hhdr, haeq, hMeq⟩ :=
        flat_header_split hs (show flatSegs segs = [] ++ h :: M from by
          rw [List.nil_append, ← hc2]) hh
      refine ⟨segs1, s, segs2, hseg, hhdr, ?_, hMeq⟩
      rw [hc1, ← haeq]
      simp
    | cons x c3 =>
      exfalso
      rw [List.cons_append] at hc2
      injection hc2 with hx _
      subst hx
      have hmem : h ∈ P := by
        rw [hc1]
        exact List.mem_append.mpr (Or.inr (List.mem_cons_self _ _))
      have hfalse := hP h hmem
      rw [hfalse] at hh
      exact absurd hh (by simp)

/-- A well-formed block's tail carries exactly one delimiter. -/
theorem countP_one_of_seg {s : Seg} (hs : SegOK s) :
    (s.body ++ "---".toList :: s.pad).countP isDivider = 1 := by
  rw [List.countP_append, List.countP_cons]
  have hb : s.body.countP isDivider = 0 := by
    rw [List.countP_eq_zero]
    intro l hl
    simp [(hs.2.1 l hl).1]
  have hp : s.pad.countP isDivider = 0 := by
    rw [List.countP_eq_zero]
    intro l hl
    simp [isDivider_false_of_blank (hs.2.2.2 l hl)]
  rw [hb, hp, if_pos (by decide)]

/-- Under the layout invariant, the lines after the last entry header carry
exactly one delimiter. -/
theorem inv_after {L : List Str} (hinv : DocInv L) :
    ∀ A h M, L = A ++ h :: M → isHeader h = true →
      (∀ l ∈ M, isHeader l = false) → M.countP isDivider = 1 := by
  obtain ⟨P, segs, hL, hP, hs⟩ := hinv
  intro A h M heq hh hM
  rw [hL] at heq
  obtain ⟨segs1, s, segs2, hseg, hhdr, hA, hMeq⟩ := doc_header_split hP.1 hs heq hh
  have hsOK : SegOK s := hs s (by
    rw [hseg]
    exact List.mem_append.mpr (Or.inr (List.mem_cons_self _ _)))
  cases segs2 with
  | nil =>
    rw [flatSegs_nil, List.append_nil] at hMeq
    rw [hMeq]
    exact countP_one_of_seg hsOK
  | cons s2 r2 =>
    exfalso
    have hs2OK : SegOK s2 := hs s2 (by
      rw [hseg]
      exact List.mem_append.mpr (Or.inr (List.mem_cons_of_mem _
        (List.mem_cons_self _ _))))
    have hmem : s2.hdr ∈ M := by
      rw [hMeq, flatSegs_cons]
      refine List.mem_append.mpr (Or.inr (List.mem_append.mpr (Or.inl ?_)))
      rw [segLines]
      exact List.mem_cons_self _ _
    have hzh := hM s2.hdr hmem
    rw [hs2OK.1] at hzh
    exact absurd hzh (by simp)

/-- Under the layout invariant, the lines strictly between two adjacent entry
headers carry exactly one delimiter. -/
theorem inv_between {L : List Str} (hinv : DocInv L) :
    ∀ A h M h2 B, L = A ++ h :: (M ++ h2 :: B) → isHeader h = true →
      isHeader h2 = true → (∀ l ∈ M, isHeader l = false) →
      M.countP isDivider = 1 := by
  obtain ⟨P, segs, hL, hP, hs⟩ := hinv
  intro A h M h2 B heq hh hh2 hM
  rw [hL] at heq
  obtain ⟨segs1, s, segs2, hseg, hhdr, hA, hMeq⟩ := doc_header_split hP.1 hs heq hh
  have hsOK : SegOK s := hs s (by
    rw [hseg]
    exact List.mem_append.mpr (Or.inr (List.mem_cons_self _ _)))
  rcases List.append_eq_append_iff.mp hMeq with ⟨m2, hm1, hm2⟩ | ⟨c2, hc1, hc2⟩
  · cases m2 with
    | nil =>
      rw [List.append_nil] at hm1
      rw [← hm1]
      exact countP_one_of_seg hsOK
    | cons z m3 =>
      exfalso
      rw [List.cons_append] at hm2
      injection hm2 with hz _
      subst hz
      have hmem : h2 ∈ s.body ++ "---".toList :: s.pad := by
        rw [hm1]
        exact List.mem_append.mpr (Or.inr (List.mem_cons_self _ _))
      have hfalse := segTail_no_header hsOK hmem
      rw [hfalse] at hh2
      exact absurd hh2 (by simp)
  · cases c2 with
    | nil =>
      rw [List.append_nil] at hc1
      rw [hc1]
      exact countP_one_of_seg hsOK
    | cons z c3 =>
      exfalso
      cases segs2 with
      | nil =>
        rw [flatSegs_nil] at hc2
        exact absurd hc2.symm (by simp)
      | cons s2 r2 =>
        have hs2OK : SegOK s2 := hs s2 (by
          rw [hseg]
          exact List.mem_append.mpr (Or.inr (List.mem_cons_of_mem _
            (List.mem_cons_self _ _))))
        rw [flatSegs_cons, segLines, List.cons_append, List.cons_append] at hc2
        injection hc2 with hz _
        have hzM : z ∈ M := by
          rw [hc1]
          exact List.mem_append.mpr (Or.inr (List.mem_cons_self _ _))
        have hzh := hM z hzM
        rw [← hz, hs2OK.1] at hzh
        exact absurd hzh (by simp)

/-- A freshly inserted block is well-formed: the cleaned entry body plus one
blank line, with blank padding. -/
theorem segOK_new {hdr : Str} {cbody : List Str} (hhh : isHeader hdr = true)
    (hbody : ∀ l ∈ cbody, isDivider l = false ∧ isHeader l = false)
    (hnb : ∃ l ∈ cbody, trimStr l ≠ []) {pad : List Str}
    (hpad : ∀ l ∈ pad, trimStr l = []) :
    SegOK ⟨hdr, cbody ++ [([] : Str)], pad⟩ := by
  refine ⟨hhh, ?_, ?_, hpad⟩
  · intro l hl
    rcases List.mem_append.mp hl with hl | hl
    · exact hbody l hl
    · rw [List.mem_singleton] at hl
      subst hl
      exact ⟨by decide, by decide⟩
  · obtain ⟨l, hl, hlt⟩ := hnb
    exact ⟨l, List.mem_append.mpr (Or.inl hl), hlt⟩

/-- Appending blank lines to a document preserves the layout invariant (they
join the preamble or the last block's padding). -/
theorem inv_append_blanks {L : List Str} (hinv : DocInv L) {bl : List Str}
    (hb : ∀ l ∈ bl, trimStr l = []) : DocInv (L ++ bl) := by
  obtain ⟨P, segs, hL, hP, hall⟩ := hinv
  rcases List.eq_nil_or_concat segs with rfl | ⟨ss, sl, rfl⟩
  · refine ⟨P ++ bl, [], ?_, ?_, by simp⟩
    · rw [hL, flatSegs_nil]
      simp
    · obtain ⟨hPh, P0, g, Pb, hPeq, hg1, hg2, hg3, hPb⟩ := hP
      refine ⟨?_, P0, g, Pb ++ bl, by rw [hPeq]; simp, hg1, hg2, hg3, ?_⟩
      · intro l hl
        rcases List.mem_append.mp hl with hl | hl
        · exact hPh l hl
        · exact isHeader_false_of_blank (hb l hl)
      · intro l hl
        rcases List.mem_append.mp hl with hl | hl
        · exact hPb l hl
        · exact hb l hl
  · simp only [List.concat_eq_append] at hL hall
    refine ⟨P, ss ++ [⟨sl.hdr, sl.body, sl.pad ++ bl⟩], ?_, hP, ?_⟩
    · rw [hL]
      simp [flatSegs_append, flatSegs_cons, flatSegs_nil, segLines]
    · intro x hx
      rcases List.mem_append.mp hx with hx | hx
      · exact hall x (List.mem_append.mpr (Or.inl hx))
      · rw [List.mem_singleton] at hx
        subst hx
        obtain ⟨h1, h2, h3, h4⟩ := hall sl (List.mem_append.mpr (Or.inr
          (List.mem_singleton.mpr rfl)))
        refine ⟨h1, h2, h3, ?_⟩
        intro l hl
        rcases List.mem_append.mp hl with hl | hl
        · exact h4 l hl
        · exact hb l hl

/-- Appending a well-formed block to a document preserves the layout
invariant. -/
theorem inv_append_seg {L : List Str} (hinv : DocInv L) {s : Seg}
    (hs : SegOK s) : DocInv (L ++ segLines s) := by
  obtain ⟨P, segs, hL, hP, hall⟩ := hinv
  refine ⟨P, segs ++ [s], ?_, hP, ?_⟩
  · rw [hL, flatSegs_append, flatSegs_cons, flatSegs_nil]
    simp
  · intro x hx
    rcases List.mem_append.mp hx with hx | hx
    · exact hall x hx
    · rw [List.mem_singleton] at hx
      subst hx
      exact hs

/-- One merge preserves the layout invariant: appends keep the raw entry's
single trailing delimiter; an insert above a found delimiter contributes a
fresh delimiter for its own block and leaves the found one to the block
above; an insert with no delimiter found appends its own delimiter below. -/
theorem insert_preserves_inv {content e t n : Str} {hdr : Str}
    {cbody : List Str} (hinv : DocInv (splitNL content))
    (he : EntryOK e hdr cbody) :
    DocInv (splitNL (insertClassByTimeFixed content e t n).1) := by
  obtain ⟨hcl, hraw, hhh, hbody, hnb⟩ := he
  simp only [insertClassByTimeFixed]
  cases hfind : (sortByMin (collectEntries (splitNL content))).find?
      (fun p => decide (parseTimeToMinutes t < p.2)) with
  | none =>
    simp only
    have hsplit : splitNL (content ++ '\n' :: (e ++ ['\n']))
        = splitNL content ++ (splitNL e ++ [[]]) := by
      rw [splitNL_append]
      congr 1
      rw [show (e ++ ['\n'] : Str) = e ++ '\n' :: [] from rfl, splitNL_append]
      rfl
    rw [hsplit, hraw]
    have hre : splitNL content ++ ((([] : Str) :: ([] : Str) :: hdr :: (cbody
          ++ [([] : Str), "---".toList, ([] : Str), ([] : Str)])) ++ [([] : Str)])
        = (splitNL content ++ [([] : Str), ([] : Str)])
          ++ segLines ⟨hdr, cbody ++ [([] : Str)],
              [([] : Str), ([] : Str), ([] : Str)]⟩ := by
      simp [segLines]
    rw [hre]
    refine inv_append_seg (inv_append_blanks hinv ?_) (segOK_new hhh hbody hnb ?_)
    · intro l hl
      rcases List.mem_cons.mp hl with rfl | hl
      · rfl
      · rw [List.mem_singleton] at hl
        subst hl
        rfl
    · intro l hl
      rcases List.mem_cons.mp hl with rfl | hl
      · rfl
      · rcases List.mem_cons.mp hl with rfl | hl
        · rfl
        · rw [List.mem_singleton] at hl
          subst hl
          rfl
  | some p =>
    simp only
    have hpmem : p ∈ collectEntries (splitNL content) :=
      mem_sortByMin.mp (List.mem_of_find?_eq_some hfind)
    obtain ⟨A, h, M, hlines, hlen, hAh⟩ := collectFrom_split hpmem
    have hlen2 : A.length = p.1 := by omega
    obtain ⟨P, segs, hL, hP, hsegs⟩ := hinv
    obtain ⟨segs1, s, segs2, hseg, hhdr, hA, hMeq⟩ :=
      doc_header_split hP.1 hsegs (hL.symm.trans hlines) hAh
    have htake : (splitNL content).take p.1 = A := by
      rw [hlines, ← hlen2]
      exact List.take_left _ _
    have hdrop : (splitNL content).drop p.1 = h :: M := by
      rw [hlines, ← hlen2]
      exact List.drop_left _ _
    rcases List.eq_nil_or_concat segs1 with rfl | ⟨ss1, sl, rfl⟩
    · rw [flatSegs_nil, List.append_nil] at hA
      rw [List.nil_append] at hseg
      obtain ⟨hPh, P0, g, Pb, hPeq, hg1, hg2, hg3, hPb⟩ := hP
      have hgb : goBack ((splitNL content).take p.1).reverse (p.1 - 1)
          = none := by
        rw [htake, hA, hPeq]
        have hrev : (P0 ++ g :: Pb).reverse = Pb.reverse ++ (g :: P0.reverse) := by
          rw [List.reverse_append, List.reverse_cons, List.append_assoc]
          rfl
        rw [hrev, goBack_blanks (fun l hl => hPb l (List.mem_reverse.mp hl)),
          goBack_stop hg3 hg1 hg2]
      simp only [hgb]
      have hjoin : splitNL (joinNL ((splitNL content).take p.1
          ++ (cleanedLines e ++ [([] : Str), "---".toList])
          ++ (splitNL content).drop p.1))
          = (splitNL content).take p.1
            ++ (cleanedLines e ++ [([] : Str), "---".toList])
            ++ (splitNL content).drop p.1 := by
        apply splitNL_joinNL
        · intro l hl
          rcases List.mem_append.mp hl with hl | hl
          · rcases List.mem_append.mp hl with hl | hl
            · exact noNL_of_mem_splitNL (List.mem_of_mem_take hl)
            · rcases List.mem_append.mp hl with hl | hl
              · exact noNL_cleanedLines hl
              · rcases List.mem_cons.mp hl with rfl | hl
                · simp [noNL]
                · rw [List.mem_singleton] at hl
                  subst hl
                  simp only [noNL]
                  decide
          · exact noNL_of_mem_splitNL (List.mem_of_mem_drop hl)
        · simp
      rw [hjoin, htake, hdrop, hcl, hA]
      refine ⟨P, ⟨hdr, cbody ++ [([] : Str)], []⟩ :: segs, ?_,
        ⟨hPh, P0, g, Pb, hPeq, hg1, hg2, hg3, hPb⟩, ?_⟩
      · subst hseg
        rw [hMeq, hhdr]
        simp [flatSegs_cons, segLines, List.append_assoc]
      · intro x hx
        rcases List.mem_cons.mp hx with rfl | hx
        · exact segOK_new hhh hbody hnb (fun l hl => absurd hl (List.not_mem_nil l))
        · exact hsegs x hx
    · simp only [List.concat_eq_append] at hseg hA
      have hsl : SegOK sl := hsegs sl (by
        rw [hseg]
        exact List.mem_append.mpr (Or.inl (List.mem_append.mpr (Or.inr
          (List.mem_singleton.mpr rfl)))))
      obtain ⟨U, hU⟩ : ∃ U, U = P ++ flatSegs ss1 ++ sl.hdr :: sl.body :=
        ⟨_, rfl⟩
      have hAU : A = U ++ "---".toList :: sl.pad := by
        rw [hU, hA, flatSegs_append, flatSegs_cons, flatSegs_nil, segLines]
        simp [List.append_assoc]
      have hlineU : splitNL content = U ++ ("---".toList :: (sl.pad ++ h :: M)) := by
        rw [hlines, hAU]
        simp [List.append_assoc]
      have hgb : goBack ((splitNL content).take p.1).reverse (p.1 - 1)
          = some U.length := by
        rw [htake, hAU, List.reverse_append, List.reverse_cons,
          List.append_assoc]
        rw [show ["---".toList] ++ U.reverse = "---".toList :: U.reverse from rfl]
        rw [goBack_blanks (fun l hl => hsl.2.2.2 l (List.mem_reverse.mp hl)),
          goBack_divider (by decide)]
        congr 1
        have hlenA : A.length = U.length + (sl.pad.length + 1) := by
          rw [hAU, List.length_append, List.length_cons]
        rw [List.length_reverse]
        omega
      simp only [hgb]
      have htakeU : (splitNL content).take U.length = U := by
        rw [hlineU]
        exact List.take_left _ _
      have hdropU : (splitNL content).drop U.length
          = "---".toList :: (sl.pad ++ h :: M) := by
        rw [hlineU]
        exact List.drop_left _ _
      have hjoin : splitNL (joinNL ((splitNL content).take U.length
          ++ ("---".toList :: ([] : Str) :: (cleanedLines e ++ [([] : Str)]))
          ++ (splitNL content).drop U.length))
          = (splitNL content).take U.length
            ++ ("---".toList :: ([] : Str) :: (cleanedLines e ++ [([] : Str)]))
            ++ (splitNL content).drop U.length := by
        apply splitNL_joinNL
        · intro l hl
          rcases List.mem_append.mp hl with hl | hl
          · rcases List.mem_append.mp hl with hl | hl
            · exact noNL_of_mem_splitNL (List.mem_of_mem_take hl)
            · rcases List.mem_cons.mp hl with rfl | hl
              · simp only [noNL]
                decide
              · rcases List.mem_cons.mp hl with rfl | hl
                · simp [noNL]
                · rcases List.mem_append.mp hl with hl | hl
                  · exact noNL_cleanedLines hl
                  · rw [List.mem_singleton] at hl
                    subst hl
                    simp [noNL]
          · exact noNL_of_mem_splitNL (List.mem_of_mem_drop hl)
        · simp
      rw [hjoin, htakeU, hdropU, hcl]
      refine ⟨P, ss1 ++ ⟨sl.hdr, sl.body, [([] : Str)]⟩
          :: ⟨hdr, cbody ++ [([] : Str)], sl.pad⟩ :: s :: segs2, ?_, hP, ?_⟩
      · rw [hU, hMeq, hhdr]
        simp [flatSegs_append, flatSegs_cons, segLines, List.append_assoc]
      · intro x hx
        rcases List.mem_append.mp hx with hx | hx
        · exact hsegs x (by
            rw [hseg]
            exact List.mem_append.mpr (Or.inl (List.mem_append.mpr (Or.inl hx))))
        · rcases List.mem_cons.mp hx with rfl | hx
          · refine ⟨hsl.1, hsl.2.1, hsl.2.2.1, ?_⟩
            intro l hl
            rw [List.mem_singleton] at hl
            subst hl
            rfl
          · rcases List.mem_cons.mp hx with rfl | hx
            · exact segOK_new hhh hbody hnb hsl.2.2.2
            · rcases List.mem_cons.mp hx with rfl | hx
              · exact hsegs x (by
                  rw [hseg]
                  exact List.mem_append.mpr (Or.inr (List.mem_cons_self _ _)))
              · exact hsegs x (by
                  rw [hseg]
                  exact List.mem_append.mpr (Or.inr (List.mem_cons_of_mem _ hx)))

/-- The layout invariant is preserved by any sequence of merges whose entry
texts have the template shape. -/
theorem fold_preserves_inv :
    ∀ (ms : List (Str × Str × Str)) (content : Str),
      DocInv (splitNL content) →
      (∀ m ∈ ms, ∃ hdr cbody, EntryOK m.1 hdr cbody) →
      DocInv (splitNL (mergeFold content ms)) := by
  intro ms
  induction ms with
  | nil =>
    intro content hinv _
    exact hinv
  | cons m ms ih =>
    intro content hinv hms
    rw [mergeFold]
    obtain ⟨hdr, cbody, hok⟩ := hms m (List.mem_cons_self _ _)
    exact ih _ (insert_preserves_inv hinv hok)
      (fun x hx => hms x (List.mem_cons_of_mem _ hx))

/-- C9: after any sequence of merges via `insertClassByTimeFixed` into a
daily-plan document satisfying the layout invariant (as the engine's
skeleton does), with entry texts of the engine's template shape, the
resulting text contains exactly one delimiter line between any two adjacent
entry-block headers and exactly one delimiter after the final entry block —
never zero and never two or more. -/
theorem c9_divider_discipline (content : Str) (ms : List (Str × Str × Str))
    (hinv : DocInv (splitNL content))
    (hms : ∀ m ∈ ms, ∃ hdr cbody, EntryOK m.1 hdr cbody) :
    (∀ A h M h2 B,
      splitNL (mergeFold content ms) = A ++ h :: (M ++ h2 :: B) →
      isHeader h = true → isHeader h2 = true →
      (∀ l ∈ M, isHeader l = false) → M.countP isDivider = 1) ∧
    ∀ A h M, splitNL (mergeFold content ms) = A ++ h :: M →
      isHeader h = true → (∀ l ∈ M, isHeader l = false) →
      M.countP isDivider = 1 := by
  have hinv2 := fold_preserves_inv ms content hinv hms
  exact ⟨fun A h M h2 B heq hh hh2 hM =>
      inv_between hinv2 A h M h2 B heq hh hh2 hM,
    fun A h M heq hh hM => inv_after hinv2 A h M heq hh hM⟩

/-- Witness for C9: merging a 10:00 class and then a 9:00 class into the
skeleton leaves exactly one delimiter between the two blocks and one after
the last. -/
theorem c9_divider_discipline_witness :
    ([([] : Str), "**Unit:** [[Painting]]  ".toList, "**Day:** 1 of 3  ".toList,
      "**Lesson:** Day 1".toList, ([] : Str), "### Quick Reference".toList,
      ([] : Str), "![[Painting#Day 1]]".toList, ([] : Str),
      "---".toList].countP isDivider = 1) ∧
    ([([] : Str), "**Unit:** [[Fractions]]  ".toList, "**Day:** 1 of 5  ".toList,
      "**Lesson:** Day 1".toList, ([] : Str), "### Quick Reference".toList,
      ([] : Str), "![[Fractions#Day 1]]".toList, ([] : Str), "---".toList,
      ([] : Str), ([] : Str), ([] : Str)].countP isDivider = 1) :=
  have hc9 := c9_divider_discipline
    ("---\ndate: 2025-01-06\nday_of_week: \"Monday\"\nclasses: []\n---\n\n# Monday, January 6, 2025".toList)
    [(classEntryText ("10:00".toList) ("Math".toList) ([]) ("Fractions".toList)
        1 5, "10:00".toList, "Math".toList),
     (classEntryText ("9:00".toList) ("Art".toList) ([]) ("Painting".toList)
        1 3, "9:00".toList, "Art".toList)]
    ⟨splitNL ("---\ndate: 2025-01-06\nday_of_week: \"Monday\"\nclasses: []\n---\n\n# Monday, January 6, 2025".toList),
     [], by simp [flatSegs_nil],
     ⟨by decide,
      ["---".toList, "date: 2025-01-06".toList,
       "day_of_week: \"Monday\"".toList, "classes: []".toList, "---".toList,
       ([] : Str)],
      "# Monday, January 6, 2025".toList, [], by decide, by decide, by decide,
      by decide, by decide⟩,
     fun s hs => absurd hs (List.not_mem_nil s)⟩
    (by
      intro m hm
      rcases List.mem_cons.mp hm with rfl | hm
      · exact ⟨"## 10:00 - Math".toList,
          [([] : Str), "**Unit:** [[Fractions]]  ".toList,
           "**Day:** 1 of 5  ".toList, "**Lesson:** Day 1".toList, ([] : Str),
           "### Quick Reference".toList, ([] : Str),
           "![[Fractions#Day 1]]".toList], by unfold EntryOK; decide⟩
      · rcases List.mem_cons.mp hm with rfl | hm
        · exact ⟨"## 9:00 - Art".toList,
            [([] : Str), "**Unit:** [[Painting]]  ".toList,
             "**Day:** 1 of 3  ".toList, "**Lesson:** Day 1".toList,
             ([] : Str), "### Quick Reference".toList, ([] : Str),
             "![[Painting#Day 1]]".toList], by unfold EntryOK; decide⟩
        · exact absurd hm (List.not_mem_nil m))
  ⟨hc9.1
    ["---".toList, "date: 2025-01-06".toList, "day_of_week: \"Monday\"".toList,
     "classes: []".toList, "---".toList, ([] : Str),
     "# Monday, January 6, 2025".toList, ([] : Str), ([] : Str)]
    ("## 9:00 - Art".toList)
    [([] : Str), "**Unit:** [[Painting]]  ".toList, "**Day:** 1 of 3  ".toList,
     "**Lesson:** Day 1".toList, ([] : Str), "### Quick Reference".toList,
     ([] : Str), "![[Painting#Day 1]]".toList, ([] : Str), "---".toList]
    ("## 10:00 - Math".toList)
    [([] : Str), "**Unit:** [[Fractions]]  ".toList, "**Day:** 1 of 5  ".toList,
     "**Lesson:** Day 1".toList, ([] : Str), "### Quick Reference".toList,
     ([] : Str), "![[Fractions#Day 1]]".toList, ([] : Str), "---".toList,
     ([] : Str), ([] : Str), ([] : Str)]
    (by decide) (by decide) (by decide) (by decide),
   hc9.2
    ["---".toList, "date: 2025-01-06".toList, "day_of_week: \"Monday\"".toList,
     "classes: []".toList, "---".toList, ([] : Str),
     "# Monday, January 6, 2025".toList, ([] : Str), ([] : Str),
     "## 9:00 - Art".toList, ([] : Str), "**Unit:** [[Painting]]  ".toList,
     "**Day:** 1 of 3  ".toList, "**Lesson:** Day 1".toList, ([] : Str),
     "### Quick Reference".toList, ([] : Str), "![[Painting#Day 1]]".toList,
     ([] : Str), "---".toList]
    ("## 10:00 - Math".toList)
    [([] : Str), "**Unit:** [[Fractions]]  ".toList, "**Day:** 1 of 5  ".toList,
     "**Lesson:** Day 1".toList, ([] : Str), "### Quick Reference".toList,
     ([] : Str), "![[Fractions#Day 1]]".toList, ([] : Str), "---".toList,
     ([] : Str), ([] : Str), ([] : Str)]
    (by decide) (by decide) (by decide)⟩

/-- C2: the claim fails on any date whose daily-plan document does not exist
yet. Because `fileExists` is called without `await`, the truthy Promise sends
every call down the read branch; `readFile` yields `null` for a missing
document, `insertClassByTimeFixed` throws on it, and the catch returns
`success: false`. Both calls on a fresh date therefore fail — the second
returns `skipped = false`, not the claimed `skipped = true` — and no document
is ever created. -/
theorem c2_missing_await_bug :
    createDailyPlanEntry ([] : Store) ("2025-01-06".toList) ("Math".toList)
        ("Fractions".toList) 1 5 ("9:00".toList) none none ⟨[], []⟩
      = (([] : Store), ⟨false, false, false⟩) ∧
    (createDailyPlanEntry
        (createDailyPlanEntry ([] : Store) ("2025-01-06".toList)
            ("Math".toList) ("Fractions".toList) 1 5 ("9:00".toList)
            none none ⟨[], []⟩).1
        ("2025-01-06".toList) ("Math".toList) ("Fractions".toList) 2 5
        ("9:00".toList) none none ⟨[], []⟩).2.skipped = false := by
  decide

/-- C8: the tallies overlap. A duplicate date returns
`success: true, skipped: true`, and the loop counts `createdPlans` on
`success`, so the skipped date is ALSO counted as created: one date whose
document already holds the class yields `createdPlans = 1` and
`skippedPlans = 1` while the store is left untouched (nothing was created
or mutated). -/
theorem c8_overlapping_counts :
    assignGo ("Math".toList) ("Fractions".toList) 1 ("9:00".toList)
        none none ⟨[], []⟩
        [(("2025-01-06".toList),
          ("---\ndate: 2025-01-06\nclasses: [\"Math\"]\n---\n\n# Monday\n\n## 9:00 - Math\n\nNotes\n\n---\n".toList))]
        0 [("2025-01-06".toList)]
      = ([(("2025-01-06".toList),
          ("---\ndate: 2025-01-06\nclasses: [\"Math\"]\n---\n\n# Monday\n\n## 9:00 - Math\n\nNotes\n\n---\n".toList))],
        ⟨1, 1, 0⟩) := by
  decide

/-- Peeling one step off the arithmetic progression of week-stepped candidate
days. -/
theorem range_step (cur : Int) (f : Nat) :
    (List.range (f + 1)).map (fun k : Nat => cur + 7 * (k : Int)) =
      cur :: (List.range f).map (fun k : Nat => cur + 7 + 7 * (k : Int)) := by
  rw [List.range_succ_eq_map, List.map_cons, List.map_map]
  simp only [Nat.cast_zero, mul_zero, add_zero]
  congr 1
  refine List.map_congr_left fun k _ => ?_
  simp only [Function.comp_apply]
  push_cast
  ring

/-- Filtering a cons whose head passes the test keeps the head. -/
theorem filter_cons_true (p : Int → Bool) (a : Int) (l : List Int)
    (h : p a = true) : List.filter p (a :: l) = a :: List.filter p l := by
  simp [List.filter_cons, h]

/-- Filtering a cons whose head fails the test drops the head. -/
theorem filter_cons_false (p : Int → Bool) (a : Int) (l : List Int)
    (h : p a = false) : List.filter p (a :: l) = List.filter p l := by
  simp [List.filter_cons, h]

/-- Characterization of the holiday-skipping loop: a successful run returns
the first `need` non-holiday days among the first `fuel` week-stepped
candidates, rendered through `isoOfDay`. -/
theorem collectDates_spec (holidays : List Str) :
    ∀ (fuel : Nat) (cur : Int) (need : Nat) (dates : List Str),
      collectDates holidays fuel cur need = some dates →
      ∃ ds : List Int,
        dates = ds.map isoOfDay ∧
        ds = (((List.range fuel).map fun k : Nat => cur + 7 * (k : Int)).filter
          (fun z => !holidays.contains (isoOfDay z))).take need ∧
        ds.length = need := by
  intro fuel
  induction fuel with
  | zero =>
    intro cur need dates h
    match need with
    | 0 =>
      simp only [collectDates, Option.some.injEq] at h
      subst h
      exact ⟨[], rfl, by simp, rfl⟩
    | n + 1 =>
      simp only [collectDates] at h
      exact Option.noConfusion h
  | succ f ih =>
    intro cur need dates h
    match need with
    | 0 =>
      simp only [collectDates, Option.some.injEq] at h
      subst h
      exact ⟨[], rfl, by simp, rfl⟩
    | n + 1 =>
      simp only [collectDates] at h
      by_cases hc : holidays.contains (isoOfDay cur) = true
      · rw [if_pos hc] at h
        obtain ⟨ds, hmap, hds, hlen⟩ := ih (cur + 7) (n + 1) dates h
        refine ⟨ds, hmap, ?_, hlen⟩
        have hpa : (fun z => !holidays.contains (isoOfDay z)) cur = false := by
          simp only [hc, Bool.not_true]
        rw [range_step,
          filter_cons_false (fun z => !holidays.contains (isoOfDay z)) cur _ hpa]
        exact hds
      · rw [if_neg hc] at h
        have hcf : holidays.contains (isoOfDay cur) = false :=
          Bool.eq_false_iff.mpr hc
        cases hop : collectDates holidays f (cur + 7) n with
        | none => rw [hop] at h; exact absurd h (by simp)
        | some dates0 =>
          rw [hop] at h
          simp only [Option.map_some', Option.some.injEq] at h
          obtain ⟨ds, hmap, hds, hlen⟩ := ih (cur + 7) n dates0 hop
          refine ⟨cur :: ds, ?_, ?_, by simp [hlen]⟩
          · rw [← h, hmap]; rfl
          · have hpa : (fun z => !holidays.contains (isoOfDay z)) cur = true := by
              simp only [hcf, Bool.not_false]
            rw [range_step,
              filter_cons_true (fun z => !holidays.contains (isoOfDay z)) cur _ hpa,
              List.take_succ_cons, hds]

/-- The weekday table maps every recognized name into 0..6. -/
theorem dayOfWeekIndex_range (w : Str) (t : Int)
    (h : dayOfWeekIndex w = some t) : 0 ≤ t ∧ t < 7 := by
  unfold dayOfWeekIndex at h
  repeat' split at h
  all_goals first
    | exact Option.noConfusion h
    | (injection h with h2; omega)

/-- The initial weekday adjustment never moves backwards. -/
theorem adjust_ge (z0 t : Int) : z0 ≤ adjustToWeekday z0 t := by
  unfold adjustToWeekday jsGetDay
  generalize hg : (z0 + 4) % 7 = g
  generalize hE : (t - g + 7) % 7 = E
  split <;> omega

/-- The initial weekday adjustment lands on the target weekday. -/
theorem adjust_day (z0 t : Int) (h0 : 0 ≤ t) (h7 : t < 7) :
    jsGetDay (adjustToWeekday z0 t) = t := by
  unfold adjustToWeekday jsGetDay
  generalize hg : (z0 + 4) % 7 = g
  generalize hE : (t - g + 7) % 7 = E
  split <;> omega

/-- No day strictly between the start and the adjusted start falls on the
target weekday: the adjustment picks the first such day on/after the
start. -/
theorem adjust_min (z0 t z : Int)
    (hz : z0 ≤ z) (hlt : z < adjustToWeekday z0 t) : jsGetDay z ≠ t := by
  unfold adjustToWeekday jsGetDay at hlt
  unfold jsGetDay
  generalize hg : (z0 + 4) % 7 = g at hlt
  generalize hE : (t - g + 7) % 7 = E at hlt
  split at hlt <;> omega

/-- C4 (counterexample): the spec says the first returned date is the first
date on/after the start falling on the requested weekday, but when that very
day is a holiday the loop skips it without reducing the count: starting
Monday 2025-01-06 with 2025-01-06 itself a holiday, duration 1 returns
2025-01-13, not 2025-01-06. -/
theorem c4_counterexample :
    calculateClassDates ("2025-01-06".toList) ("Monday".toList) 1
        [("2025-01-06".toList)] 5 = some [("2025-01-13".toList)] ∧
    parseStartDate ("2025-01-06".toList) = some (2025, 1, 6) ∧
    jsGetDay (jsMakeDay 2025 (1 - 1) 6) = 1 ∧
    isoOfDay (jsMakeDay 2025 (1 - 1) 6) = ("2025-01-06".toList) ∧
    ("2025-01-13".toList) ≠ ("2025-01-06".toList) := by
  decide

/-- C4 (amended): on a terminating run, `calculateClassDates` returns exactly
`duration` date strings: the renderings of the first `duration` non-holiday
candidates among the week-stepped days from the adjusted start. The list is
strictly increasing; every element falls on the target weekday, is not a
holiday, and is on/after the adjusted start; and the adjusted start is the
first day on/after the parsed start date falling on the target weekday. The
first returned element is therefore the first NON-HOLIDAY such candidate,
not necessarily the first candidate itself. -/
theorem c4_recurrence_amended
    (startDate w : Str) (duration : Nat) (holidays : List Str) (fuel : Nat)
    (dates : List Str) (target y m d : Int)
    (hw : dayOfWeekIndex w = some target)
    (hp : parseStartDate startDate = some (y, m, d))
    (hrun : calculateClassDates startDate w duration holidays fuel
      = some dates) :
    ∃ ds : List Int,
      dates = ds.map isoOfDay ∧
      ds.length = duration ∧
      List.Chain' (· < ·) ds ∧
      (∀ z ∈ ds, jsGetDay z = target ∧
        holidays.contains (isoOfDay z) = false ∧
        adjustToWeekday (jsMakeDay y (m - 1) d) target ≤ z) ∧
      ds = (((List.range fuel).map fun k : Nat =>
          adjustToWeekday (jsMakeDay y (m - 1) d) target + 7 * (k : Int)).filter
          (fun z => !holidays.contains (isoOfDay z))).take duration ∧
      jsMakeDay y (m - 1) d ≤ adjustToWeekday (jsMakeDay y (m - 1) d) target ∧
      jsGetDay (adjustToWeekday (jsMakeDay y (m - 1) d) target) = target ∧
      ∀ z, jsMakeDay y (m - 1) d ≤ z →
        z < adjustToWeekday (jsMakeDay y (m - 1) d) target →
        jsGetDay z ≠ target := by
  obtain ⟨ht0, ht7⟩ := dayOfWeekIndex_range w target hw
  simp only [calculateClassDates, hw, hp] at hrun
  obtain ⟨ds, hmap, hds, hlen⟩ :=
    collectDates_spec holidays fuel
      (adjustToWeekday (jsMakeDay y (m - 1) d) target) duration dates hrun
  have hpw : List.Pairwise (· < ·) ((List.range fuel).map
      fun k : Nat => adjustToWeekday (jsMakeDay y (m - 1) d) target + 7 * (k : Int)) := by
    rw [List.pairwise_map]
    exact (List.pairwise_lt_range fuel).imp fun hab => by omega
  have hchain : List.Chain' (· < ·) ds := by
    rw [hds]
    exact (hpw.sublist
      ((List.take_sublist _ _).trans (List.filter_sublist _))).chain'
  have hmem : ∀ z ∈ ds, jsGetDay z = target ∧
      holidays.contains (isoOfDay z) = false ∧
      adjustToWeekday (jsMakeDay y (m - 1) d) target ≤ z := by
    intro z hz
    rw [hds] at hz
    obtain ⟨hzm, hzp⟩ := List.mem_filter.1 (List.mem_of_mem_take hz)
    obtain ⟨k, _, rfl⟩ := List.mem_map.1 hzm
    have hstart := adjust_day (jsMakeDay y (m - 1) d) target ht0 ht7
    refine ⟨?_, by simpa using hzp, by omega⟩
    unfold jsGetDay at hstart ⊢
    omega
  exact ⟨ds, hmap, hlen, hchain, hmem, hds, adjust_ge _ _,
    adjust_day _ _ ht0 ht7, fun z hz1 hz2 => adjust_min _ _ _ hz1 hz2⟩

/-- Witness for C4 (amended): starting Wednesday 2025-01-08 asking for two
Mondays with 2025-01-20 a holiday yields 2025-01-13 and 2025-01-27. -/
theorem c4_recurrence_amended_witness :
    ∃ ds : List Int,
      [("2025-01-13".toList), ("2025-01-27".toList)] = ds.map isoOfDay ∧
      ds.length = 2 ∧
      List.Chain' (· < ·) ds ∧
      (∀ z ∈ ds, jsGetDay z = 1 ∧
        [("2025-01-20".toList)].contains (isoOfDay z) = false ∧
        adjustToWeekday (jsMakeDay 2025 (1 - 1) 8) 1 ≤ z) ∧
      ds = (((List.range 6).map fun k : Nat =>
          adjustToWeekday (jsMakeDay 2025 (1 - 1) 8) 1 + 7 * (k : Int)).filter
          (fun z => !([("2025-01-20".toList)].contains (isoOfDay z)))).take 2 ∧
      jsMakeDay 2025 (1 - 1) 8 ≤ adjustToWeekday (jsMakeDay 2025 (1 - 1) 8) 1 ∧
      jsGetDay (adjustToWeekday (jsMakeDay 2025 (1 - 1) 8) 1) = 1 ∧
      ∀ z, jsMakeDay 2025 (1 - 1) 8 ≤ z →
        z < adjustToWeekday (jsMakeDay 2025 (1 - 1) 8) 1 →
        jsGetDay z ≠ 1 :=
  c4_recurrence_amended ("2025-01-08".toList) ("Monday".toList) 2
    [("2025-01-20".toList)] 6
    [("2025-01-13".toList), ("2025-01-27".toList)] 1 2025 1 8
    (by decide) (by decide) (by decide)

end LP
